import Mathlib

/-!
Verification of the `pmd_message` crate: the keyword escape codec
(`src/bin_database.rs`) and the message-store binary codec (`src/lib.rs`).

Texts are modelled as `List Char` on the keyword-codec side and as lists of
UTF-16 code units (`List Nat`, each `< 2 ^ 16`) on the binary-codec side;
byte streams are `List Nat` (each entry a byte).  Rust's `BTreeMap` is
modelled as an association list with overwrite-on-insert semantics (the code
never iterates these maps, so only `get`/`insert` semantics matter).
-/

/-- Model of `BTreeMap::get`: first entry with the given key, if any. -/
def mapGet {α β : Type} [DecidableEq α] (m : List (α × β)) (k : α) : Option β :=
  (m.find? (fun e => decide (e.1 = k))).map (fun e => e.2)

/-- Model of `BTreeMap::insert`: overwrite the value when the key is present,
otherwise add a new entry. -/
def mapInsert {α β : Type} [DecidableEq α] (m : List (α × β)) (k : α) (v : β) :
    List (α × β) :=
  if (mapGet m k).isSome then
    m.map (fun e => if e.1 = k then (k, v) else e)
  else
    m ++ [(k, v)]

/-- The static table `KEYWORD_ID` from `src/bin_database.rs` (31 entries). -/
def KEYWORD_ID : List (Char × List Char) := [
  ('\uC101', "ORANGE".toList),
  ('\uC102', "PINK".toList),
  ('\uC103', "RED".toList),
  ('\uC104', "GREEN".toList),
  ('\uC105', "LIGHTBLUE".toList),
  ('\uC106', "YELLOW".toList),
  ('\uC107', "WHITE".toList),
  ('\uC108', "GRAY".toList),
  ('\uC109', "PINK".toList),
  ('\uC10A', "RED".toList),
  ('\uC10B', "BLACK".toList),
  ('\uC10C', "DARKGRAY".toList),
  ('\uC10D', "DARKGREEN".toList),
  ('\uC10E', "BLUE".toList),
  ('\uC10F', "COLOREND".toList),
  ('\uC200', "CENTER".toList),
  ('\uD100', "PLAYERNAME".toList),
  ('\uD200', "PARTNERNAME".toList),
  ('\uD301', "PLAYERPOKEMON".toList),
  ('\uD302', "PARTNERPOKEMON".toList),
  ('\uA072', "POKE".toList),
  ('\uA09B', "BUTTONA".toList),
  ('\uA09C', "BUTTONB".toList),
  ('\uA09D', "BUTTONX".toList),
  ('\uA09E', "BUTTONY".toList),
  ('\uA09F', "BUTTONL".toList),
  ('\uA0A0', "BUTTONR".toList),
  ('\uB200', "SPEAKERNORMAL".toList),
  ('\uB201', "SPEAKERHAPPY".toList),
  ('\uB202', "SPEAKERPAINED".toList),
  ('\uEB00', "PAUSE".toList)]

/-- The error enum `MessageKeywordEncodeError` from `src/bin_database.rs`. -/
inductive MessageKeywordEncodeError : Type where
  | NoCharAfterEscape : MessageKeywordEncodeError
  | UselessEscape : Char → MessageKeywordEncodeError
  | NoCharInBracket : MessageKeywordEncodeError
  | UnknownEscape : List Char → MessageKeywordEncodeError
deriving DecidableEq, Repr

/-- The struct `MessageKeyword` from `src/bin_database.rs`. -/
structure MessageKeyword : Type where
  id_by_string : List (List Char × Char)
  string_by_id : List (Char × List Char)
deriving DecidableEq, Repr

/-- `MessageKeyword::new_empty`. -/
def MessageKeyword.new_empty : MessageKeyword := ⟨[], []⟩

/-- `MessageKeyword::add_keyword`: registers both directions of the mapping. -/
def MessageKeyword.add_keyword (kw : MessageKeyword) (id : Char)
    (text : List Char) : MessageKeyword :=
  ⟨mapInsert kw.id_by_string text id, mapInsert kw.string_by_id id text⟩

/-- `MessageKeyword::new_default`: registers every `KEYWORD_ID` entry in order. -/
def MessageKeyword.new_default : MessageKeyword :=
  KEYWORD_ID.foldl (fun kw e => kw.add_keyword e.1 e.2) MessageKeyword.new_empty

/-- One step of `MessageKeyword::decode` for a single character. -/
def decodeSeg (kw : MessageKeyword) (chara : Char) : List Char :=
  match mapGet kw.string_by_id chara with
  | some element => '[' :: element ++ [']']
  | none =>
    if chara = '[' then ['\\', '[']
    else if chara = '\\' then ['\\', '\\']
    else [chara]

/-- `MessageKeyword::decode`: total scan, escaping mapped code-points to
`[NAME]` and literal `[` / `\` to their escaped form. -/
def MessageKeyword.decode (kw : MessageKeyword) (input : List Char) : List Char :=
  input.foldr (fun chara acc => decodeSeg kw chara ++ acc) []

/-- The body of `MessageKeyword::encode`.  The Rust nested loops share one
character iterator; here the in-bracket inner loop is carried in the first
list argument (`none` = outside a bracket, `some buf` = inside a bracket with
accumulated `bracket_buffer = buf`), which keeps the recursion structural. -/
def encodeGo (kw : MessageKeyword) (bracket : Option (List Char)) :
    List Char → Except MessageKeywordEncodeError (List Char)
  | [] =>
    match bracket with
    | none => .ok []
    | some _ => .error .NoCharInBracket
  | chara :: rest =>
    match bracket with
    | some buf =>
      if chara = ']' then
        match mapGet kw.id_by_string buf with
        | none => .error (.UnknownEscape buf)
        | some special_chara =>
          Except.map (fun r => special_chara :: r) (encodeGo kw none rest)
      else encodeGo kw (some (buf ++ [chara])) rest
    | none =>
      if chara = '\\' then
        match rest with
        | [] => .error .NoCharAfterEscape
        | escaped_char :: rest2 =>
          if escaped_char = '\\' ∨ escaped_char = '[' then
            Except.map (fun r => escaped_char :: r) (encodeGo kw none rest2)
          else .error (.UselessEscape escaped_char)
      else if chara = '[' then encodeGo kw (some []) rest
      else Except.map (fun r => chara :: r) (encodeGo kw none rest)

/-- `MessageKeyword::encode`. -/
def MessageKeyword.encode (kw : MessageKeyword) (decoded : List Char) :
    Except MessageKeywordEncodeError (List Char) :=
  encodeGo kw none decoded

instance {ε α : Type} [DecidableEq ε] [DecidableEq α] : DecidableEq (Except ε α) :=
  fun x y =>
  match x, y with
  | .ok a, .ok b =>
    if h : a = b then .isTrue (congrArg _ h)
    else .isFalse (fun he => h (Except.ok.inj he))
  | .error a, .error b =>
    if h : a = b then .isTrue (congrArg _ h)
    else .isFalse (fun he => h (Except.error.inj he))
  | .ok _, .error _ => .isFalse (fun he => Except.noConfusion he)
  | .error _, .ok _ => .isFalse (fun he => Except.noConfusion he)

set_option maxRecDepth 8192

example : MessageKeyword.new_default.encode ("[RED]".toList) =
    .ok ['\uC10A'] := by decide

example : MessageKeyword.new_default.decode ['\uC103'] = "[RED]".toList := by
  decide

example : MessageKeyword.new_default.encode ['\\'] =
    .error .NoCharAfterEscape := by decide

example : MessageKeyword.new_default.encode ('\\' :: ['a']) =
    .error (.UselessEscape 'a') := by decide

example : MessageKeyword.new_default.encode ("[RED".toList) =
    .error .NoCharInBracket := by decide

example : MessageKeyword.new_default.encode ("[SOMETHING_UNKNOWN]".toList) =
    .error (.UnknownEscape "SOMETHING_UNKNOWN".toList) := by decide

/-- Helper: split a character list at the first `]` (the bracket-reading
inner loop of `encode`, seen as returning the buffer and the remainder). -/
def splitRB : List Char → Option (List Char × List Char)
  | [] => none
  | c :: rest =>
    if c = ']' then some ([], rest)
    else (splitRB rest).map (fun p => (c :: p.1, p.2))

lemma dropWhile_length_le {α : Type} (p : α → Bool) (l : List α) :
    (l.dropWhile p).length ≤ l.length := by
  induction l with
  | nil => simp
  | cons a l ih =>
    by_cases h : p a
    · rw [List.dropWhile_cons_of_pos h]
      exact Nat.le_succ_of_le ih
    · rw [List.dropWhile_cons_of_neg h]

/-- Modelled from the spec: the left-to-right, single-pass classification of
`encode` inputs into the four failure conditions of section 4.3 (end of input
after a backslash; a backslash before a character other than backslash or `[`;
an unclosed `[`; a bracketed name absent from the table), succeeding on any
other input.  Only the outcome is recorded, not the encoded text. -/
def specScan (kw : MessageKeyword) : List Char → Except MessageKeywordEncodeError Unit
  | [] => .ok ()
  | chara :: rest =>
    if chara = '\\' then
      match rest with
      | [] => .error .NoCharAfterEscape
      | c :: rest2 =>
        if c = '\\' ∨ c = '[' then specScan kw rest2
        else .error (.UselessEscape c)
    else if chara = '[' then
      if ']' ∈ rest then
        match mapGet kw.id_by_string (rest.takeWhile (fun c => c ≠ ']')) with
        | none => .error (.UnknownEscape (rest.takeWhile (fun c => c ≠ ']')))
        | some _ => specScan kw ((rest.dropWhile (fun c => c ≠ ']')).drop 1)
      else .error .NoCharInBracket
    else specScan kw rest
termination_by l => l.length
decreasing_by
  all_goals simp only [List.length_cons, List.length_drop]
  all_goals try omega
  all_goals
    exact Nat.lt_succ_of_le (Nat.le_trans (Nat.sub_le _ _) (dropWhile_length_le _ _))

lemma splitRB_none {l : List Char} (h : splitRB l = none) : ']' ∉ l := by
  induction l with
  | nil => simp
  | cons c rest ih =>
    simp only [splitRB] at h
    by_cases hc : c = ']'
    · rw [if_pos hc] at h
      exact absurd h (by simp)
    · rw [if_neg hc] at h
      rcases h' : splitRB rest with _ | p
      · intro hm
        rcases List.mem_cons.mp hm with he | hm'
        · exact hc he.symm
        · exact ih h' hm'
      · rw [h'] at h
        simp at h

lemma splitRB_of_not_mem {l : List Char} (h : ']' ∉ l) : splitRB l = none := by
  induction l with
  | nil => rfl
  | cons c rest ih =>
    have hc : ¬ c = ']' := fun he => h (by rw [he]; exact List.mem_cons_self _ _)
    have hr : ']' ∉ rest := fun hm => h (List.mem_cons_of_mem _ hm)
    simp only [splitRB, if_neg hc, ih hr, Option.map_none']

lemma splitRB_some {l a b : List Char} (h : splitRB l = some (a, b)) :
    l = a ++ ']' :: b ∧ ']' ∉ a := by
  induction l generalizing a b with
  | nil => simp [splitRB] at h
  | cons c rest ih =>
    simp only [splitRB] at h
    by_cases hc : c = ']'
    · rw [if_pos hc] at h
      have h2 := Option.some.inj h
      have ha : ([] : List Char) = a := congrArg Prod.fst h2
      have hb : rest = b := congrArg Prod.snd h2
      subst hc
      rw [← ha, ← hb]
      simp
    · rw [if_neg hc] at h
      rcases h' : splitRB rest with _ | p
      · rw [h'] at h
        simp at h
      · rw [h'] at h
        simp only [Option.map_some'] at h
        have h2 := Option.some.inj h
        have ha : c :: p.1 = a := congrArg Prod.fst h2
        have hb : p.2 = b := congrArg Prod.snd h2
        rcases ih (a := p.1) (b := p.2) (by rw [h']) with ⟨hr, hna⟩
        constructor
        · rw [← ha, hr, ← hb]
          simp
        · rw [← ha]
          intro hm
          rcases List.mem_cons.mp hm with he | hm'
          · exact hc he.symm
          · exact hna hm'

lemma splitRB_append {a : List Char} (b : List Char) (ha : ']' ∉ a) :
    splitRB (a ++ ']' :: b) = some (a, b) := by
  induction a with
  | nil => simp [splitRB]
  | cons c a2 ih =>
    have hc : ¬ c = ']' := fun he => ha (by rw [he]; exact List.mem_cons_self _ _)
    have ha2 : ']' ∉ a2 := fun hm => ha (List.mem_cons_of_mem _ hm)
    simp only [List.cons_append, splitRB, List.append_eq, if_neg hc, ih ha2,
      Option.map_some']

lemma takeWhile_append_rb {a : List Char} (b : List Char) (ha : ']' ∉ a) :
    (a ++ ']' :: b).takeWhile (fun c => c ≠ ']') = a ∧
    (a ++ ']' :: b).dropWhile (fun c => c ≠ ']') = ']' :: b := by
  induction a with
  | nil => constructor <;> simp
  | cons c a2 ih =>
    have hc : ¬ c = ']' := fun he => ha (by rw [he]; exact List.mem_cons_self _ _)
    have ha2 : ']' ∉ a2 := fun hm => ha (List.mem_cons_of_mem _ hm)
    rcases ih ha2 with ⟨h1, h2⟩
    constructor
    · rw [List.cons_append, List.takeWhile_cons_of_pos (by simp [hc]), h1]
    · rw [List.cons_append, List.dropWhile_cons_of_pos (by simp [hc]), h2]

lemma except_map_eq_ok {α β ε : Type} {f : α → β} {x : Except ε α} {b : β}
    (h : Except.map f x = .ok b) : ∃ a, x = .ok a ∧ b = f a := by
  cases x with
  | ok a =>
    refine ⟨a, rfl, ?_⟩
    simp only [Except.map] at h
    exact (Except.ok.inj h).symm
  | error e => simp [Except.map] at h

lemma except_map_unit_map {α β ε : Type} (g : α → β) (x : Except ε α) :
    Except.map (fun _ => ()) (Except.map g x) = Except.map (fun _ => ()) x := by
  cases x <;> rfl

/-- Running `encodeGo` in in-bracket mode is the same as splitting at the
first `]` and looking up the accumulated buffer. -/
lemma encodeGo_some (kw : MessageKeyword) (buf l : List Char) :
    encodeGo kw (some buf) l =
      match splitRB l with
      | none => .error .NoCharInBracket
      | some (a, b) =>
        match mapGet kw.id_by_string (buf ++ a) with
        | none => .error (.UnknownEscape (buf ++ a))
        | some special_chara =>
          Except.map (fun r => special_chara :: r) (encodeGo kw none b) := by
  induction l generalizing buf with
  | nil => simp [encodeGo, splitRB]
  | cons c rest ih =>
    by_cases hc : c = ']'
    · subst hc
      simp [encodeGo, splitRB]
    · rw [show encodeGo kw (some buf) (c :: rest) =
            encodeGo kw (some (buf ++ [c])) rest by simp [encodeGo, hc]]
      rw [ih (buf ++ [c])]
      simp only [splitRB, if_neg hc]
      rcases h' : splitRB rest with _ | p
      · simp
      · simp [List.append_assoc]

lemma mapGet_eq_some_mem {α β : Type} [DecidableEq α] {m : List (α × β)} {k : α}
    {v : β} (h : mapGet m k = some v) : (k, v) ∈ m := by
  unfold mapGet at h
  rcases hf : m.find? (fun e => decide (e.1 = k)) with _ | e
  · rw [hf] at h
    simp at h
  · rw [hf] at h
    simp only [Option.map_some'] at h
    have hm := List.mem_of_find?_eq_some hf
    have hp := List.find?_some hf
    rcases e with ⟨k2, v2⟩
    simp at hp
    have hv : v2 = v := Option.some.inj h
    subst hp
    subst hv
    exact hm

/-- Coherence of a keyword table: every effective `name → code` binding is
mirrored by the `code → name` map.  `new_default` satisfies this; a table in
which two `add_keyword` calls rebind the same code-point to different names
does not. -/
def Coh (kw : MessageKeyword) : Prop :=
  ∀ e ∈ kw.id_by_string,
    mapGet kw.id_by_string e.1 = some e.2 → mapGet kw.string_by_id e.2 = some e.1

instance (kw : MessageKeyword) : Decidable (Coh kw) := by
  unfold Coh
  infer_instance

lemma coh_get {kw : MessageKeyword} (h : Coh kw) {n : List Char} {c : Char}
    (hg : mapGet kw.id_by_string n = some c) :
    mapGet kw.string_by_id c = some n :=
  h (n, c) (mapGet_eq_some_mem hg) hg


lemma encodeGo_none_nil (kw : MessageKeyword) : encodeGo kw none [] = .ok [] := by
  rw [encodeGo.eq_def]

lemma encodeGo_escape_nil (kw : MessageKeyword) :
    encodeGo kw none ['\\'] = .error .NoCharAfterEscape := by
  rw [encodeGo.eq_def]
  simp

lemma encodeGo_escape_cons (kw : MessageKeyword) {c : Char} (rest : List Char)
    (h : c = '\\' ∨ c = '[') :
    encodeGo kw none ('\\' :: c :: rest) =
      Except.map (fun r => c :: r) (encodeGo kw none rest) := by
  rw [encodeGo.eq_def]
  simp [h]

lemma encodeGo_escape_bad (kw : MessageKeyword) {c : Char} (rest : List Char)
    (h : ¬(c = '\\' ∨ c = '[')) :
    encodeGo kw none ('\\' :: c :: rest) = .error (.UselessEscape c) := by
  rw [encodeGo.eq_def]
  simp [h]

lemma encodeGo_bracket_open (kw : MessageKeyword) (rest : List Char) :
    encodeGo kw none ('[' :: rest) = encodeGo kw (some []) rest := by
  rw [encodeGo.eq_def]
  simp

lemma encodeGo_other (kw : MessageKeyword) {chara : Char} (rest : List Char)
    (h1 : chara ≠ '\\') (h2 : chara ≠ '[') :
    encodeGo kw none (chara :: rest) =
      Except.map (fun r => chara :: r) (encodeGo kw none rest) := by
  rw [encodeGo.eq_def]
  simp [h1, h2]

lemma specScan_nil (kw : MessageKeyword) : specScan kw [] = .ok () := by
  rw [specScan.eq_def]

lemma specScan_escape_nil (kw : MessageKeyword) :
    specScan kw ['\\'] = .error .NoCharAfterEscape := by
  rw [specScan.eq_def]
  simp

lemma specScan_escape_cons (kw : MessageKeyword) {c : Char} (rest : List Char)
    (h : c = '\\' ∨ c = '[') :
    specScan kw ('\\' :: c :: rest) = specScan kw rest := by
  rw [specScan.eq_def]
  simp [h]

lemma specScan_escape_bad (kw : MessageKeyword) {c : Char} (rest : List Char)
    (h : ¬(c = '\\' ∨ c = '[')) :
    specScan kw ('\\' :: c :: rest) = .error (.UselessEscape c) := by
  rw [specScan.eq_def]
  simp [h]

lemma specScan_bracket_none (kw : MessageKeyword) {rest : List Char}
    (h : ']' ∉ rest) :
    specScan kw ('[' :: rest) = .error .NoCharInBracket := by
  rw [specScan.eq_def]
  simp [h]

lemma specScan_bracket (kw : MessageKeyword) {a : List Char} (b : List Char)
    (ha : ']' ∉ a) :
    specScan kw ('[' :: (a ++ ']' :: b)) =
      match mapGet kw.id_by_string a with
      | none => .error (.UnknownEscape a)
      | some _ => specScan kw b := by
  rcases takeWhile_append_rb (a := a) b ha with ⟨ht, hd⟩
  have hmem : ']' ∈ a ++ ']' :: b := by simp
  rw [specScan.eq_def]
  simp only [if_neg (show ¬('[' : Char) = '\\' by decide),
    if_pos (show ('[' : Char) = '[' from rfl), if_pos hmem, ht, hd]
  simp

lemma specScan_other (kw : MessageKeyword) {chara : Char} (rest : List Char)
    (h1 : chara ≠ '\\') (h2 : chara ≠ '[') :
    specScan kw (chara :: rest) = specScan kw rest := by
  rw [specScan.eq_def]
  simp [h1, h2]

/-- C7.  `MessageKeyword::encode` fails in exactly the four specified ways:
its outcome (success, or which typed error) coincides, on every keyword table
and every input, with the spec's left-to-right classification `specScan` of
the four failure conditions — input ending right after a backslash gives
`NoCharAfterEscape`; a backslash followed by anything other than backslash or
`[` gives `UselessEscape` with that character; an unclosed `[` gives
`NoCharInBracket`; an unknown bracketed name gives `UnknownEscape` with that
name; any other input succeeds. -/
theorem encode_error_taxonomy (kw : MessageKeyword) (t : List Char) :
    Except.map (fun _ => ()) (kw.encode t) = specScan kw t := by
  suffices H : ∀ (n : Nat) (l : List Char), l.length ≤ n →
      Except.map (fun _ => ()) (encodeGo kw none l) = specScan kw l by
    exact H t.length t le_rfl
  intro n
  induction n with
  | zero =>
    intro l hl
    have hnil : l = [] := List.eq_nil_of_length_eq_zero (Nat.le_zero.mp hl)
    subst hnil
    rw [encodeGo_none_nil, specScan_nil]
    rfl
  | succ n ih =>
    intro l hl
    match l with
    | [] =>
      rw [encodeGo_none_nil, specScan_nil]
      rfl
    | chara :: rest =>
      by_cases h1 : chara = '\\'
      · subst h1
        match rest with
        | [] =>
          rw [encodeGo_escape_nil, specScan_escape_nil]
          rfl
        | c :: rest2 =>
          by_cases h2 : c = '\\' ∨ c = '['
          · rw [encodeGo_escape_cons kw rest2 h2, specScan_escape_cons kw rest2 h2,
              except_map_unit_map]
            refine ih rest2 ?_
            simp only [List.length_cons] at hl
            omega
          · rw [encodeGo_escape_bad kw rest2 h2, specScan_escape_bad kw rest2 h2]
            rfl
      · by_cases h2 : chara = '['
        · subst h2
          rw [encodeGo_bracket_open, encodeGo_some]
          rcases hs : splitRB rest with _ | ⟨a, b⟩
          · rw [specScan_bracket_none kw (splitRB_none hs)]
            rfl
          · rcases splitRB_some hs with ⟨hrest, hna⟩
            have hblen : b.length ≤ n := by
              simp only [List.length_cons] at hl
              have hrl : rest.length = a.length + b.length + 1 := by
                rw [hrest, List.length_append, List.length_cons]
                omega
              omega
            subst hrest
            rw [specScan_bracket kw b hna]
            simp only [List.nil_append]
            rcases hg : mapGet kw.id_by_string a with _ | ch
            · rfl
            · simp only [except_map_unit_map]
              exact ih b hblen
        · rw [encodeGo_other kw rest h1 h2, specScan_other kw rest h1 h2,
            except_map_unit_map]
          refine ih rest ?_
          simp only [List.length_cons] at hl
          omega

lemma decode_nil (kw : MessageKeyword) : kw.decode [] = [] := rfl

lemma decode_cons (kw : MessageKeyword) (c : Char) (l : List Char) :
    kw.decode (c :: l) = decodeSeg kw c ++ kw.decode l := rfl

/-- C2 (amended).  `decode (encode t) = t` whenever `encode` succeeds on `t`,
provided the table is coherent (`Coh`) and no character of `t` is itself a
mapped special code-point: a mapped code-point passes through `encode`
unchanged but is re-escaped by `decode`, which breaks the unrestricted law
(see the counterexample). -/
theorem keyword_decode_encode_roundtrip (kw : MessageKeyword) (t r : List Char)
    (hcoh : Coh kw)
    (hun : ∀ c ∈ t, mapGet kw.string_by_id c = none)
    (he : kw.encode t = .ok r) :
    kw.decode r = t := by
  suffices H : ∀ (n : Nat) (l r2 : List Char), l.length ≤ n →
      (∀ c ∈ l, mapGet kw.string_by_id c = none) →
      encodeGo kw none l = .ok r2 → kw.decode r2 = l by
    exact H t.length t r le_rfl hun he
  intro n
  induction n with
  | zero =>
    intro l r2 hl hu he2
    have hnil : l = [] := List.eq_nil_of_length_eq_zero (Nat.le_zero.mp hl)
    subst hnil
    rw [encodeGo_none_nil] at he2
    rw [← Except.ok.inj he2]
    rfl
  | succ n ih =>
    intro l r2 hl hu he2
    match l with
    | [] =>
      rw [encodeGo_none_nil] at he2
      rw [← Except.ok.inj he2]
      rfl
    | chara :: rest =>
      by_cases h1 : chara = '\\'
      · subst h1
        match rest with
        | [] =>
          rw [encodeGo_escape_nil] at he2
          exact absurd he2 (by simp)
        | c :: rest2 =>
          by_cases h2 : c = '\\' ∨ c = '['
          · rw [encodeGo_escape_cons kw rest2 h2] at he2
            rcases except_map_eq_ok he2 with ⟨r3, he3, hr⟩
            subst hr
            have hcu : mapGet kw.string_by_id c = none := hu c (by simp)
            have hdr : kw.decode r3 = rest2 := by
              refine ih rest2 r3 ?_ (fun x hx => hu x (by simp [hx])) he3
              simp only [List.length_cons] at hl
              omega
            rcases h2 with h2 | h2 <;> subst h2 <;>
              simp [decode_cons, decodeSeg, hcu, hdr]
          · rw [encodeGo_escape_bad kw rest2 h2] at he2
            exact absurd he2 (by simp)
      · by_cases h2 : chara = '['
        · subst h2
          rw [encodeGo_bracket_open, encodeGo_some] at he2
          rcases hs : splitRB rest with _ | ⟨a, b⟩
          · rw [hs] at he2
            simp at he2
          · rw [hs] at he2
            rcases splitRB_some hs with ⟨hrest, hna⟩
            simp only [List.nil_append] at he2
            rcases hg : mapGet kw.id_by_string a with _ | ch
            · rw [hg] at he2
              simp at he2
            · rw [hg] at he2
              rcases except_map_eq_ok he2 with ⟨r3, he3, hr⟩
              subst hr
              have hsb : mapGet kw.string_by_id ch = some a := coh_get hcoh hg
              have hblen : b.length ≤ n := by
                simp only [List.length_cons] at hl
                have hrl : rest.length = a.length + b.length + 1 := by
                  rw [hrest, List.length_append, List.length_cons]
                  omega
                omega
              have hdb : kw.decode r3 = b := by
                refine ih b r3 hblen ?_ he3
                intro x hx
                refine hu x ?_
                rw [hrest]
                simp [hx]
              subst hrest
              simp [decode_cons, decodeSeg, hsb, hdb]
        · rw [encodeGo_other kw rest h1 h2] at he2
          rcases except_map_eq_ok he2 with ⟨r3, he3, hr⟩
          subst hr
          have hcu : mapGet kw.string_by_id chara = none := hu chara (by simp)
          have hdr : kw.decode r3 = rest := by
            refine ih rest r3 ?_ (fun x hx => hu x (by simp [hx])) he3
            simp only [List.length_cons] at hl
            omega
          simp [decode_cons, decodeSeg, hcu, h1, h2, hdr]

/-- C2 counterexample.  With the default table, `encode` succeeds on the raw
mapped code-point U+C103 returning it unchanged, but `decode` re-escapes it to
`[RED]`, so `decode (encode t) ≠ t` as the claim stands. -/
theorem keyword_decode_encode_counterexample :
    MessageKeyword.new_default.encode ['섃'] = .ok ['섃'] ∧
    MessageKeyword.new_default.decode ['섃'] ≠ ['섃'] := by
  constructor
  · decide
  · decide

/-- Witness for C2: the amended round trip at a concrete table and input. -/
theorem keyword_decode_encode_roundtrip_witness :
    MessageKeyword.new_default.decode ['섊', 'a'] = "[RED]a".toList :=
  keyword_decode_encode_roundtrip MessageKeyword.new_default ("[RED]a".toList)
    ['섊', 'a'] (by decide) (by decide) (by decide)

lemma encode_def (kw : MessageKeyword) (l : List Char) :
    kw.encode l = encodeGo kw none l := rfl

/-- A character is harmless for the `encode (decode r)` direction: either it
is unmapped, or its name is bracket-free and maps back to it. -/
def GoodChar (kw : MessageKeyword) (c : Char) : Prop :=
  match mapGet kw.string_by_id c with
  | none => True
  | some nm => ']' ∉ nm ∧ mapGet kw.id_by_string nm = some c

instance (kw : MessageKeyword) (c : Char) : Decidable (GoodChar kw c) :=
  match h : mapGet kw.string_by_id c with
  | none => .isTrue (by unfold GoodChar; rw [h]; trivial)
  | some nm =>
    if hd : ']' ∉ nm ∧ mapGet kw.id_by_string nm = some c then
      .isTrue (by unfold GoodChar; rw [h]; exact hd)
    else
      .isFalse (by unfold GoodChar; rw [h]; exact hd)

lemma goodChar_some {kw : MessageKeyword} {c : Char} {nm : List Char}
    (h : GoodChar kw c) (hg : mapGet kw.string_by_id c = some nm) :
    ']' ∉ nm ∧ mapGet kw.id_by_string nm = some c := by
  unfold GoodChar at h
  rw [hg] at h
  exact h

/-- C8 (amended).  `encode (decode r) = r` holds — and in particular the
composition succeeds — whenever `r` contains no literal `[` or `\` and every
mapped code-point of `r` has a bracket-free name that maps back to the same
code-point.  The second condition is forced by the counterexample: two
code-points sharing a name make the name map back (last-registration-wins) to
the other code-point, so `encode (decode r)` can also differ from `r` without
any literal `[` or `\` in `r`. -/
theorem keyword_encode_decode_roundtrip (kw : MessageKeyword) (r : List Char)
    (h1 : ∀ c ∈ r, c ≠ '[' ∧ c ≠ '\\')
    (h2 : ∀ c ∈ r, GoodChar kw c) :
    kw.encode (kw.decode r) = .ok r := by
  induction r with
  | nil => rfl
  | cons c r2 ih =>
    have hc := h1 c (by simp)
    have ih2 : kw.encode (kw.decode r2) = .ok r2 :=
      ih (fun x hx => h1 x (by simp [hx])) (fun x hx => h2 x (by simp [hx]))
    rw [decode_cons]
    rcases hg : mapGet kw.string_by_id c with _ | nm
    · have hseg : decodeSeg kw c = [c] := by
        simp [decodeSeg, hg, hc.1, hc.2]
      rw [hseg, List.singleton_append, encode_def,
        encodeGo_other kw (kw.decode r2) hc.2 hc.1, ← encode_def, ih2]
      rfl
    · rcases goodChar_some (h2 c (by simp)) hg with ⟨hnb, hid⟩
      have hseg : decodeSeg kw c = '[' :: nm ++ [']'] := by
        simp [decodeSeg, hg]
      rw [hseg]
      rw [show ('[' :: nm ++ [']']) ++ kw.decode r2 =
            '[' :: (nm ++ ']' :: kw.decode r2) by simp]
      rw [encode_def, encodeGo_bracket_open, encodeGo_some,
        splitRB_append _ hnb]
      simp only [List.nil_append, hid]
      rw [← encode_def, ih2]
      rfl

/-- C8 counterexample.  With the default table and `r = [U+C103]` (no literal
`[` or `\` anywhere in `r`), `encode (decode r)` succeeds but returns
`[U+C10A]` — the other code-point named `RED` — not `r`. -/
theorem keyword_encode_decode_counterexample :
    MessageKeyword.new_default.encode
        (MessageKeyword.new_default.decode ['섃']) = .ok ['섊'] ∧
    (['섊'] : List Char) ≠ ['섃'] ∧
    '[' ∉ (['섃'] : List Char) ∧ '\\' ∉ (['섃'] : List Char) := by
  refine ⟨by decide, by decide, by decide, by decide⟩

/-- Witness for C8: the amended statement at a concrete table and input. -/
theorem keyword_encode_decode_roundtrip_witness :
    MessageKeyword.new_default.encode
        (MessageKeyword.new_default.decode ['a', '섊']) =
      .ok ['a', '섊'] :=
  keyword_encode_decode_roundtrip MessageKeyword.new_default ['a', '섊']
    (by decide) (by decide)

/-- C9.  In the default table the code-point U+C10A is bound to the name
`RED`; `decode` renders it as the literal text `[RED]`, and `encode` maps
`[RED]` back to that same code-point. -/
theorem default_table_red_roundtrip :
    mapGet MessageKeyword.new_default.string_by_id '섊' =
      some ("RED".toList) ∧
    MessageKeyword.new_default.decode ['섊'] = "[RED]".toList ∧
    MessageKeyword.new_default.encode ("[RED]".toList) = .ok ['섊'] := by
  refine ⟨by decide, by decide, by decide⟩

lemma mapGet_none_iff {α β : Type} [DecidableEq α] {m : List (α × β)} {k : α} :
    mapGet m k = none ↔ ∀ e ∈ m, e.1 ≠ k := by
  unfold mapGet
  simp [List.find?_eq_none]

lemma keys_nodup_mem_unique {α β : Type} [DecidableEq α] {m : List (α × β)}
    (hnd : (m.map (fun e => e.1)).Nodup) {k : α} {v1 v2 : β}
    (h1 : (k, v1) ∈ m) (h2 : (k, v2) ∈ m) : v1 = v2 := by
  induction m with
  | nil => simp at h1
  | cons e m ih =>
    simp only [List.map_cons, List.nodup_cons, List.mem_map] at hnd
    rcases List.mem_cons.mp h1 with h1e | h1m <;>
      rcases List.mem_cons.mp h2 with h2e | h2m
    · rw [← h1e] at h2e
      exact (Prod.mk.injEq _ _ _ _ ▸ h2e.symm).2
    · exact absurd ⟨(k, v2), h2m, by rw [← h1e]⟩ hnd.1
    · exact absurd ⟨(k, v1), h1m, by rw [← h2e]⟩ hnd.1
    · exact ih hnd.2 h1m h2m

lemma mem_mapGet_isSome {α β : Type} [DecidableEq α] {m : List (α × β)}
    {k : α} {v : β} (h : (k, v) ∈ m) : ∃ v2, mapGet m k = some v2 := by
  rcases hf : mapGet m k with _ | v2
  · rw [mapGet_none_iff] at hf
    exact absurd rfl (hf _ h)
  · exact ⟨v2, rfl⟩

lemma mapInsert_of_none {α β : Type} [DecidableEq α] {m : List (α × β)} {k : α}
    (v : β) (hm : mapGet m k = none) : mapInsert m k v = m ++ [(k, v)] := by
  unfold mapInsert
  rw [hm]
  rfl

/-- The struct `MessageBin` from `src/lib.rs`: the side index `hash_to_id`
(a `BTreeMap<u32, usize>`) and the insertion-ordered entry list `message`
(`Vec<(u32, u32, String)>`, texts as UTF-16 code-unit lists). -/
structure MessageBin : Type where
  hash_to_id : List (Nat × Nat)
  message : List (Nat × Nat × List Nat)
deriving DecidableEq, Repr

/-- `MessageBin::default()`. -/
def MessageBin.empty : MessageBin := ⟨[], []⟩

/-- `MessageBin::messages`. -/
def MessageBin.messages (mb : MessageBin) : List (Nat × Nat × List Nat) :=
  mb.message

/-- `MessageBin::message_by_hash`. -/
def MessageBin.message_by_hash (mb : MessageBin) (hash : Nat) :
    Option (List Nat) :=
  match mapGet mb.hash_to_id hash with
  | none => none
  | some key => (mb.message[key]?).map (fun e => e.2.2)

/-- In-place update of the entry at one index (the
`self.message[*position].1 = unk; self.message[*position].2 = message`
assignments). -/
def listModify {α : Type} (f : α → α) : Nat → List α → List α
  | _, [] => []
  | 0, a :: l => f a :: l
  | n + 1, a :: l => a :: listModify f n l

/-- `MessageBin::insert`: update in place when the hash is present, append
(and index) a fresh entry otherwise. -/
def MessageBin.insert (mb : MessageBin) (hash unk : Nat) (message : List Nat) :
    MessageBin :=
  match mapGet mb.hash_to_id hash with
  | none =>
    { hash_to_id := mapInsert mb.hash_to_id hash mb.message.length,
      message := mb.message ++ [(hash, unk, message)] }
  | some position =>
    { mb with
      message := listModify (fun e => (e.1, unk, message)) position mb.message }

/-- The representation invariant of `MessageBin`: index keys are distinct,
every index entry points at a message with its hash, and every message is
indexed at its position. -/
def MessageBin.Inv (mb : MessageBin) : Prop :=
  (mb.hash_to_id.map (fun e => e.1)).Nodup ∧
  (∀ e ∈ mb.hash_to_id, (mb.message[e.2]?).map (fun x => x.1) = some e.1) ∧
  (∀ p ∈ mb.message.enum, (p.2.1, p.1) ∈ mb.hash_to_id)

instance (mb : MessageBin) : Decidable mb.Inv := by
  unfold MessageBin.Inv
  infer_instance

lemma insert_of_none {mb : MessageBin} {h : Nat} (u : Nat) (t : List Nat)
    (hm : mapGet mb.hash_to_id h = none) :
    mb.insert h u t =
      ⟨mapInsert mb.hash_to_id h mb.message.length,
       mb.message ++ [(h, u, t)]⟩ := by
  unfold MessageBin.insert
  rw [hm]

lemma insert_of_some {mb : MessageBin} {h i : Nat} (u : Nat) (t : List Nat)
    (hm : mapGet mb.hash_to_id h = some i) :
    mb.insert h u t =
      { mb with
        message := listModify (fun e => (e.1, u, t)) i mb.message } := by
  unfold MessageBin.insert
  rw [hm]

lemma listModify_getElem? {α : Type} (f : α → α) (l : List α) (i j : Nat) :
    (listModify f i l)[j]? = if i = j then (l[j]?).map f else l[j]? := by
  induction l generalizing i j with
  | nil => simp [listModify]
  | cons a l ih =>
    match i, j with
    | 0, 0 => simp [listModify]
    | 0, j + 1 => simp [listModify]
    | i + 1, 0 => simp [listModify]
    | i + 1, j + 1 =>
      simp only [listModify, List.getElem?_cons_succ, ih i j]
      by_cases hij : i = j <;> simp [hij]

lemma listModify_eq_set {α : Type} (f : α → α) (l : List α) (i : Nat) (e : α)
    (h : l[i]? = some e) : listModify f i l = l.set i (f e) := by
  induction l generalizing i with
  | nil => simp at h
  | cons a l ih =>
    match i with
    | 0 =>
      simp only [List.getElem?_cons_zero] at h
      rw [Option.some.inj h]
      simp [listModify]
    | i + 1 =>
      simp only [List.getElem?_cons_succ] at h
      simp [listModify, ih i h]

lemma inv_get_index {mb : MessageBin} (hInv : mb.Inv) {h i u : Nat}
    {t : List Nat} (hg : mb.message[i]? = some (h, u, t)) :
    mapGet mb.hash_to_id h = some i := by
  rcases hInv with ⟨hnd, h2, h3⟩
  have hmem : (h, i) ∈ mb.hash_to_id := by
    refine h3 (i, (h, u, t)) ?_
    exact List.mk_mem_enum_iff_getElem?.mpr hg
  rcases mem_mapGet_isSome hmem with ⟨j, hj⟩
  have hmemj : (h, j) ∈ mb.hash_to_id := mapGet_eq_some_mem hj
  have : i = j := keys_nodup_mem_unique hnd hmem hmemj
  rw [hj, this]

lemma inv_index_get {mb : MessageBin} (hInv : mb.Inv) {h i : Nat}
    (hg : mapGet mb.hash_to_id h = some i) :
    ∃ u t, mb.message[i]? = some (h, u, t) := by
  rcases hInv with ⟨hnd, h2, h3⟩
  have hmem : (h, i) ∈ mb.hash_to_id := mapGet_eq_some_mem hg
  have := h2 _ hmem
  rcases he : mb.message[i]? with _ | e
  · rw [he] at this
    simp at this
  · rw [he] at this
    simp only [Option.map_some'] at this
    rcases e with ⟨h2', u, t⟩
    refine ⟨u, t, ?_⟩
    have hh : h2' = h := Option.some.inj this
    rw [hh]

lemma inv_fresh_none {mb : MessageBin} (hInv : mb.Inv) {h : Nat}
    (hf : ∀ x ∈ mb.message, x.1 ≠ h) :
    mapGet mb.hash_to_id h = none := by
  rcases hg : mapGet mb.hash_to_id h with _ | i
  · rfl
  · rcases inv_index_get hInv hg with ⟨u, t, he⟩
    have hm : (h, u, t) ∈ mb.message := List.getElem?_mem he
    exact absurd rfl (hf _ hm)

/-- C4.  Under the representation invariant, `insert` with a hash already
present overwrites that entry's `unk` and `text` in place (its position in
the iteration order is unchanged), and `insert` with a fresh hash appends the
new entry at the end of the iteration order. -/
theorem insert_update_or_append (mb : MessageBin) (h u : Nat) (t : List Nat)
    (hInv : mb.Inv) :
    (∀ i e, mb.message[i]? = some e → e.1 = h →
        (mb.insert h u t).message = mb.message.set i (h, u, t)) ∧
    ((∀ x ∈ mb.message, x.1 ≠ h) →
        (mb.insert h u t).message = mb.message ++ [(h, u, t)]) := by
  constructor
  · intro i e hg he
    rcases e with ⟨h1, u1, t1⟩
    subst he
    have hm : mapGet mb.hash_to_id h1 = some i := inv_get_index hInv hg
    rw [insert_of_some u t hm]
    simp only
    rw [listModify_eq_set _ _ _ _ hg]
  · intro hf
    rw [insert_of_none u t (inv_fresh_none hInv hf)]

/-- Witness for C4 at a concrete store: updating the present hash 5 rewrites
the entry in place; inserting the fresh hash 9 appends. -/
theorem insert_update_or_append_witness :
    ((MessageBin.empty.insert 5 6 [7]).insert 5 1 [2]).message =
        [(5, 6, [7])].set 0 (5, 1, [2]) ∧
    ((MessageBin.empty.insert 5 6 [7]).insert 9 1 [2]).message =
        [(5, 6, [7])] ++ [(9, 1, [2])] :=
  ⟨(insert_update_or_append (MessageBin.empty.insert 5 6 [7]) 5 1 [2]
      (by decide)).1 0 (5, 6, [7]) (by decide) (by decide),
   (insert_update_or_append (MessageBin.empty.insert 5 6 [7]) 9 1 [2]
      (by decide)).2 (by decide)⟩

lemma inv_insert_fresh {mb : MessageBin} {h : Nat} (u : Nat) (t : List Nat)
    (hInv : mb.Inv) (hm : mapGet mb.hash_to_id h = none) :
    (mb.insert h u t).Inv := by
  rcases hInv with ⟨hnd, h2, h3⟩
  rw [insert_of_none u t hm, mapInsert_of_none _ hm]
  refine ⟨?_, ?_, ?_⟩
  · simp only [List.map_append, List.map_cons, List.map_nil]
    rw [List.nodup_append]
    refine ⟨hnd, List.nodup_singleton _, ?_⟩
    intro a ha hb
    simp only [List.mem_singleton] at hb
    subst hb
    simp only [List.mem_map] at ha
    rcases ha with ⟨e, hem, hek⟩
    rw [mapGet_none_iff] at hm
    exact hm e hem hek
  · intro e he
    rcases List.mem_append.mp he with hold | hnew
    · have h2e := h2 e hold
      have hlt : e.2 < mb.message.length := by
        rcases hx : mb.message[e.2]? with _ | x
        · rw [hx] at h2e
          simp at h2e
        · exact (List.getElem?_eq_some_iff.mp hx).1
      rw [List.getElem?_append_left hlt]
      exact h2e
    · simp only [List.mem_singleton] at hnew
      subst hnew
      simp only [List.getElem?_concat_length, Option.map_some']
  · intro p hp
    rw [List.mem_enum_iff_getElem?] at hp
    by_cases hlt : p.1 < mb.message.length
    · rw [List.getElem?_append_left hlt] at hp
      refine List.mem_append.mpr (Or.inl ?_)
      exact h3 p (List.mem_enum_iff_getElem?.mpr hp)
    · rw [List.getElem?_append_right (Nat.le_of_not_lt hlt)] at hp
      have hz : p.1 - mb.message.length = 0 ∧ p.2 = (h, u, t) := by
        rcases hd : p.1 - mb.message.length with _ | d
        · rw [hd] at hp
          simp only [List.getElem?_cons_zero] at hp
          exact ⟨rfl, (Option.some.inj hp).symm⟩
        · rw [hd] at hp
          simp at hp
      have hp1 : p.1 = mb.message.length := by omega
      rw [hz.2, hp1]
      simp

lemma inv_insert_existing {mb : MessageBin} {h i : Nat} (u : Nat) (t : List Nat)
    (hInv : mb.Inv) (hm : mapGet mb.hash_to_id h = some i) :
    (mb.insert h u t).Inv := by
  rcases inv_index_get hInv hm with ⟨u0, t0, hg0⟩
  rcases hInv with ⟨hnd, h2, h3⟩
  rw [insert_of_some u t hm]
  refine ⟨hnd, ?_, ?_⟩
  · intro e he
    simp only [listModify_getElem?]
    by_cases hei : i = e.2
    · rw [if_pos hei, ← hei, hg0]
      simp only [Option.map_some']
      have h2e := h2 e he
      rw [← hei, hg0] at h2e
      simp only [Option.map_some'] at h2e
      exact h2e
    · rw [if_neg hei]
      exact h2 e he
  · intro p hp
    rw [List.mem_enum_iff_getElem?] at hp
    simp only [listModify_getElem?] at hp
    by_cases hpi : i = p.1
    · rw [if_pos hpi] at hp
      rw [← hpi, hg0] at hp
      simp only [Option.map_some'] at hp
      have hp2 : p.2 = (h, u, t) := (Option.some.inj hp).symm
      rw [hp2, ← hpi]
      exact mapGet_eq_some_mem hm
    · rw [if_neg hpi] at hp
      exact h3 p (List.mem_enum_iff_getElem?.mpr hp)

lemma inv_insert {mb : MessageBin} (h u : Nat) (t : List Nat)
    (hInv : mb.Inv) : (mb.insert h u t).Inv := by
  rcases hm : mapGet mb.hash_to_id h with _ | i
  · exact inv_insert_fresh u t hInv hm
  · exact inv_insert_existing u t hInv hm

lemma inv_empty : MessageBin.empty.Inv := by decide

lemma inv_message_hashes_nodup {mb : MessageBin} (hInv : mb.Inv) :
    (mb.message.map (fun x => x.1)).Nodup := by
  unfold List.Nodup
  rw [List.pairwise_map, List.pairwise_iff_getElem]
  intro i j hi hj hij heq
  have hgi : mb.message[i]? = some (mb.message[i]) := List.getElem?_eq_getElem hi
  have hgj : mb.message[j]? = some (mb.message[j]) := List.getElem?_eq_getElem hj
  have hA : mapGet mb.hash_to_id (mb.message[i]).1 = some i :=
    inv_get_index hInv hgi
  have hB : mapGet mb.hash_to_id (mb.message[j]).1 = some j :=
    inv_get_index hInv hgj
  rw [heq, hB] at hA
  exact absurd (Option.some.inj hA) (by omega)

/-- Folding `insert` over a batch of fresh, pairwise-distinct hashes appends
them in order and preserves the invariant. -/
lemma foldl_insert_append {mb : MessageBin} {l : List (Nat × Nat × List Nat)}
    (hInv : mb.Inv) (hnd : (l.map (fun x => x.1)).Nodup)
    (hdisj : ∀ x ∈ l, ∀ y ∈ mb.message, x.1 ≠ y.1) :
    (l.foldl (fun acc x => acc.insert x.1 x.2.1 x.2.2) mb).message =
      mb.message ++ l ∧
    (l.foldl (fun acc x => acc.insert x.1 x.2.1 x.2.2) mb).Inv := by
  induction l generalizing mb with
  | nil => simpa using hInv
  | cons x l ih =>
    have hfr : ∀ y ∈ mb.message, y.1 ≠ x.1 :=
      fun y hy => (hdisj x (by simp) y hy).symm
    have hm : mapGet mb.hash_to_id x.1 = none := inv_fresh_none hInv hfr
    have hstep : (mb.insert x.1 x.2.1 x.2.2).message = mb.message ++ [x] := by
      rw [insert_of_none _ _ hm]
    have hInv2 : (mb.insert x.1 x.2.1 x.2.2).Inv := inv_insert _ _ _ hInv
    simp only [List.map_cons, List.nodup_cons] at hnd
    have hdisj2 : ∀ a ∈ l, ∀ y ∈ (mb.insert x.1 x.2.1 x.2.2).message,
        a.1 ≠ y.1 := by
      intro a ha y hy
      rw [hstep] at hy
      rcases List.mem_append.mp hy with hy | hy
      · exact hdisj a (by simp [ha]) y hy
      · simp only [List.mem_singleton] at hy
        subst hy
        intro hax
        exact hnd.1 (List.mem_map.mpr ⟨a, ha, hax⟩)
    rcases ih hInv2 hnd.2 hdisj2 with ⟨hmsg, hinv3⟩
    simp only [List.foldl_cons]
    rw [hmsg, hstep]
    exact ⟨by simp, hinv3⟩

/-- The error enum `MessageBinWriteError` from `src/lib.rs` (the I/O, footer
and code-table variants exist in the Rust enum; with no code table and an
in-memory stream the model never produces them). -/
inductive MessageBinWriteError : Type where
  | IOError : MessageBinWriteError
  | TooBigError : MessageBinWriteError
  | Overflow : MessageBinWriteError
  | Sir0WriteFooterError : MessageBinWriteError
  | CantEncodeText : MessageBinWriteError
deriving DecidableEq, Repr

/-- The error enum `MessageBinReadError` from `src/lib.rs`. -/
inductive MessageBinReadError : Type where
  | IOError : MessageBinReadError
  | Sir0Error : MessageBinReadError
  | BinReadError : MessageBinReadError
  | CantDecodeString : MessageBinReadError
deriving DecidableEq, Repr

/-- The struct `MessageBinStringData` from `src/lib.rs` (one 12-byte record). -/
structure MessageBinStringData : Type where
  string_pointer : Nat
  string_hash : Nat
  unk : Nat
deriving DecidableEq, Repr

/-- Little-endian bytes of a `u32`. -/
def u32Bytes (v : Nat) : List Nat :=
  [v % 256, v / 256 % 256, v / 65536 % 256, v / 16777216 % 256]

/-- Little-endian bytes of a `u16` code unit (`v.to_le_bytes()`). -/
def unitBytes (u : Nat) : List Nat := [u % 256, u / 256 % 256]

/-- `binary_text_to_write`: the UTF-16LE bytes of a text plus the two zero
terminator bytes pushed after it. -/
def textBytes (t : List Nat) : List Nat := (t.map unitBytes).flatten ++ [0, 0]

/-- The 12 on-disk bytes of one record (`#[binwrite(little)]`). -/
def recordBytes (r : MessageBinStringData) : List Nat :=
  u32Bytes r.string_pointer ++ u32Bytes r.string_hash ++ u32Bytes r.unk

/-- The on-disk record table. -/
def tableBytes (rs : List MessageBinStringData) : List Nat :=
  (rs.map recordBytes).flatten

/-- Modelled from the spec: the fixed 16-byte Sir0 container header (magic,
header-blob pointer, footer pointer, padding) that `write_sir0_header` writes
over the reserved block at offset 0. -/
def sir0HeaderBytes (header_pointer footer_pointer : Nat) : List Nat :=
  [83, 73, 82, 48] ++ u32Bytes header_pointer ++ u32Bytes footer_pointer
    ++ [0, 0, 0, 0]

/-- Modelled from the spec: the Sir0 relocation footer written by
`write_sir0_footer`, a function of the absolute offset list; it is opaque to
this codec and never re-read by `load_file`. -/
def sir0FooterBytes (offsets : List Nat) : List Nat :=
  (offsets.map u32Bytes).flatten

/-- The relations the two `sort_unstable_by_key` calls sort by. -/
def hashLe (a b : MessageBinStringData) : Prop := a.string_hash ≤ b.string_hash

def ptrLe (a b : MessageBinStringData) : Prop :=
  a.string_pointer ≤ b.string_pointer

instance : DecidableRel hashLe := fun a b => Nat.decLe a.string_hash b.string_hash

instance : DecidableRel ptrLe :=
  fun a b => Nat.decLe a.string_pointer b.string_pointer

/-- The text-emission loop of `MessageBin::write` (no code table): emits
every `binary_text_to_write`, records `strings_data`, and threads
`text_current_offset` (starting at 16) through the checked `u32` additions;
`try_into` failure is `TooBigError`, `checked_add` failure is `Overflow`. -/
def writeTexts : List (Nat × Nat × List Nat) → Nat →
    Except MessageBinWriteError (List Nat × List MessageBinStringData × Nat)
  | [], off => .ok ([], [], off)
  | (hash, unk, text) :: rest, off =>
    let b := textBytes text
    if 2 ^ 32 ≤ b.length then .error .TooBigError
    else if 2 ^ 32 ≤ off + b.length then .error .Overflow
    else
      match writeTexts rest (off + b.length) with
      | .error e => .error e
      | .ok (bs, rs, off2) => .ok (b ++ bs, ⟨off, hash, unk⟩ :: rs, off2)

/-- `MessageBin::write` (no code table), as the byte string it produces:
16 reserved header bytes, the text blobs in dictionary iteration order,
padding to 4, the record table sorted by `string_hash`, the 8-byte internal
header (`string_count`, `string_info_pointer`), padding to 16, the Sir0
footer, and finally the Sir0 header backpatched over the reserved block. -/
def MessageBin.write (mb : MessageBin) :
    Except MessageBinWriteError (List Nat) :=
  match writeTexts mb.messages 16 with
  | .error e => .error e
  | .ok (text_bytes, strings_data, text_current_offset) =>
    let pad :=
      if text_current_offset % 4 ≠ 0 then 4 - text_current_offset % 4 else 0
    if 2 ^ 32 ≤ text_current_offset + pad then .error .TooBigError
    else
      let string_meta_position := text_current_offset + pad
      let sorted_data := List.insertionSort hashLe strings_data
      let n := strings_data.length
      let sir0_offsets := [4, 8] ++
        (List.range n).map (fun i => (string_meta_position + i * 12) % 2 ^ 32)
      if 2 ^ 32 ≤ n then .error .TooBigError
      else if 2 ^ 32 ≤ n * 12 then .error .Overflow
      else if 2 ^ 32 ≤ string_meta_position + n * 12 then .error .Overflow
      else if 2 ^ 32 ≤ string_meta_position + n * 12 + 4 then .error .Overflow
      else
        let sir0_offsets2 := sir0_offsets ++ [string_meta_position + n * 12 + 4]
        let sir0_header_position := string_meta_position + n * 12
        let cur := sir0_header_position + 8
        let pad16 := if cur % 16 ≠ 0 then 16 - cur % 16 else 0
        let sir0_footer_position := cur + pad16
        if 2 ^ 32 ≤ sir0_header_position then .error .TooBigError
        else if 2 ^ 32 ≤ sir0_footer_position then .error .TooBigError
        else
          .ok (sir0HeaderBytes sir0_header_position sir0_footer_position
            ++ text_bytes ++ List.replicate pad 0 ++ tableBytes sorted_data
            ++ u32Bytes n ++ u32Bytes string_meta_position
            ++ List.replicate pad16 0 ++ sir0FooterBytes sir0_offsets2)

/-- A little-endian `u32` read (`read_le`) from a byte suffix. -/
def readU32 : List Nat → Except MessageBinReadError Nat
  | b0 :: b1 :: b2 :: b3 :: _ =>
    .ok (b0 + 256 * b1 + 65536 * b2 + 16777216 * b3)
  | _ => .error .BinReadError

/-- A `u32` read after a seek to `pos`. -/
def readU32At (file : List Nat) (pos : Nat) : Except MessageBinReadError Nat :=
  readU32 (file.drop pos)

/-- Modelled from the spec: `Sir0::new` validates the container magic and
exposes the header-blob pointer and footer pointer from the fixed header. -/
def parseSir0 (file : List Nat) : Except MessageBinReadError (Nat × Nat) :=
  if file.take 4 = [83, 73, 82, 48] then
    match readU32At file 4, readU32At file 8 with
    | .ok hp, .ok fp => .ok (hp, fp)
    | _, _ => .error .Sir0Error
  else .error .Sir0Error

/-- Reading `MessageBinSir0Header` (`string_count`, `string_info_pointer`)
from the Sir0 header blob. -/
def parseHeader (file : List Nat) : Except MessageBinReadError (Nat × Nat) := do
  let sir0 ← parseSir0 file
  let string_count ← readU32At file sir0.1
  let string_info_pointer ← readU32At file (sir0.1 + 4)
  .ok (string_count, string_info_pointer)

/-- One 12-byte `MessageBinStringData` record read at `pos`. -/
def readRecordAt (file : List Nat) (pos : Nat) :
    Except MessageBinReadError MessageBinStringData := do
  let string_pointer ← readU32At file pos
  let string_hash ← readU32At file (pos + 4)
  let unk ← readU32At file (pos + 8)
  .ok ⟨string_pointer, string_hash, unk⟩

/-- The `for _ in 0..string_count` record-reading loop. -/
def readRecords (file : List Nat) (pos : Nat) :
    Nat → Except MessageBinReadError (List MessageBinStringData)
  | 0 => .ok []
  | k + 1 => do
    let r ← readRecordAt file pos
    let rs ← readRecords file (pos + 12) k
    .ok (r :: rs)

/-- Header parse plus the record-table read of `load_file`. -/
def parseRecords (file : List Nat) :
    Except MessageBinReadError (List MessageBinStringData) := do
  let header ← parseHeader file
  readRecords file header.2 header.1

/-- `NullWideString`: little-endian 16-bit units up to (and excluding) a zero
unit; running out of bytes is a binread error. -/
def readUnits : List Nat → Except MessageBinReadError (List Nat)
  | b0 :: b1 :: rest =>
    if b0 + 256 * b1 = 0 then .ok []
    else
      match readUnits rest with
      | .error e => .error e
      | .ok us => .ok ((b0 + 256 * b1) :: us)
  | _ => .error .BinReadError

/-- Reading one `MessageBinText` at `string_pointer`. -/
def readText (file : List Nat) (pos : Nat) :
    Except MessageBinReadError (List Nat) :=
  readUnits (file.drop pos)

/-- The per-record seek-and-read loop of `load_file`, over the
pointer-sorted records. -/
def readTexts (file : List Nat) :
    List MessageBinStringData →
      Except MessageBinReadError (List (Nat × Nat × List Nat))
  | [] => .ok []
  | r :: rs => do
    let t ← readText file r.string_pointer
    let ts ← readTexts file rs
    .ok ((r.string_hash, r.unk, t) :: ts)

/-- The `(hash, unk, text)` triples `load_file` inserts, in processing order
(records sorted by ascending `string_pointer`). -/
def loadTriples (file : List Nat) :
    Except MessageBinReadError (List (Nat × Nat × List Nat)) := do
  let records ← parseRecords file
  readTexts file (List.insertionSort ptrLe records)

/-- `MessageBin::load_file` (no code table). -/
def MessageBin.load_file (file : List Nat) :
    Except MessageBinReadError MessageBin := do
  let ts ← loadTriples file
  .ok (ts.foldl (fun acc x => acc.insert x.1 x.2.1 x.2.2) MessageBin.empty)

/-- Well-formedness of a store as produced by the Rust types: hashes and unk
values are `u32`s, text code units are `u16`s. -/
def MessageBin.Wf (mb : MessageBin) : Prop :=
  ∀ e ∈ mb.message, e.1 < 2 ^ 32 ∧ e.2.1 < 2 ^ 32 ∧ ∀ u ∈ e.2.2, u < 2 ^ 16

/-- No text contains the NUL code unit (which would collide with the on-disk
zero terminator). -/
def MessageBin.NoNul (mb : MessageBin) : Prop :=
  ∀ e ∈ mb.message, ∀ u ∈ e.2.2, u ≠ 0

example : (MessageBin.empty.insert 1 2 [65]).write =
    .ok ([83, 73, 82, 48] ++ u32Bytes 32 ++ u32Bytes 48 ++ [0, 0, 0, 0]
      ++ [65, 0, 0, 0]
      ++ tableBytes [⟨16, 1, 2⟩]
      ++ u32Bytes 1 ++ u32Bytes 20
      ++ [0, 0, 0, 0, 0, 0, 0, 0]
      ++ sir0FooterBytes [4, 8, 20, 36]) := by decide

example :
    (match (MessageBin.empty.insert 1 2 [65]).write with
     | .ok out => MessageBin.load_file out
     | .error _ => .error .IOError) =
    .ok (MessageBin.empty.insert 1 2 [65]) := by decide

lemma u32Bytes_length (v : Nat) : (u32Bytes v).length = 4 := rfl

lemma textBytes_length (t : List Nat) :
    (textBytes t).length = 2 * t.length + 2 := by
  induction t with
  | nil => rfl
  | cons u t ih =>
    unfold textBytes at ih ⊢
    have h2 : (unitBytes u).length = 2 := rfl
    simp only [List.map_cons, List.flatten_cons, List.append_assoc,
      List.length_append, List.length_cons, List.length_nil, h2] at ih ⊢
    omega

lemma recordBytes_length (r : MessageBinStringData) :
    (recordBytes r).length = 12 := rfl

lemma tableBytes_length (rs : List MessageBinStringData) :
    (tableBytes rs).length = rs.length * 12 := by
  induction rs with
  | nil => rfl
  | cons r rs ih =>
    unfold tableBytes at ih ⊢
    simp only [List.map_cons, List.flatten_cons, List.length_append, ih,
      recordBytes_length, List.length_cons]
    omega

lemma sir0HeaderBytes_length (hp fp : Nat) :
    (sir0HeaderBytes hp fp).length = 16 := rfl

lemma readU32_u32Bytes {v : Nat} (rest : List Nat) (hv : v < 2 ^ 32) :
    readU32 (u32Bytes v ++ rest) = .ok v := by
  unfold u32Bytes readU32
  simp only [List.cons_append]
  congr 1
  omega

lemma readUnits_textBytes {t : List Nat} (rest : List Nat)
    (hlt : ∀ u ∈ t, u < 2 ^ 16) (hnz : ∀ u ∈ t, u ≠ 0) :
    readUnits (textBytes t ++ rest) = .ok t := by
  induction t with
  | nil => rfl
  | cons u t ih =>
    have hu : u % 256 + 256 * (u / 256 % 256) = u := by
      have := hlt u (by simp)
      omega
    unfold textBytes
    simp only [List.map_cons, List.flatten_cons, List.append_assoc,
      List.cons_append]
    show readUnits (u % 256 :: u / 256 % 256 ::
      ((t.map unitBytes).flatten ++ ([0, 0] ++ rest))) = .ok (u :: t)
    unfold readUnits
    rw [hu, if_neg (hnz u (by simp))]
    have ih2 := ih (fun x hx => hlt x (by simp [hx])) (fun x hx => hnz x (by simp [hx]))
    unfold textBytes at ih2
    rw [List.append_assoc] at ih2
    rw [ih2]

/-- What a successful text-emission pass produces: the concatenated blobs,
the final offset, records carrying the hashes and unk values of their
messages, strictly increasing pointers starting at `off`, all within range. -/
lemma writeTexts_ok {msgs : List (Nat × Nat × List Nat)} :
    ∀ {off : Nat} {bs : List Nat} {rs : List MessageBinStringData} {off2 : Nat},
    writeTexts msgs off = .ok (bs, rs, off2) →
    bs = (msgs.map (fun m => textBytes m.2.2)).flatten ∧
    off2 = off + bs.length ∧
    rs.length = msgs.length ∧
    (∀ r ∈ rs, ∃ m ∈ msgs, r.string_hash = m.1 ∧ r.unk = m.2.1) ∧
    List.Pairwise (fun a b => a.string_pointer < b.string_pointer) rs ∧
    (∀ r ∈ rs, off ≤ r.string_pointer ∧ r.string_pointer + 2 ≤ off2) ∧
    (msgs ≠ [] → off2 < 2 ^ 32) := by
  induction msgs with
  | nil =>
    intro off bs rs off2 h
    unfold writeTexts at h
    have h3 := Except.ok.inj h
    have hbs : ([] : List Nat) = bs := congrArg Prod.fst h3
    have hrs : ([] : List MessageBinStringData) = rs :=
      congrArg (fun p => p.2.1) h3
    have hoff : off = off2 := congrArg (fun p => p.2.2) h3
    refine ⟨by simp [← hbs], by simp [← hbs, ← hoff], by simp [← hrs],
      by simp [← hrs], by simp [← hrs], by simp [← hrs], by simp⟩
  | cons m rest ih =>
    intro off bs rs off2 h
    rcases m with ⟨hash, unk, text⟩
    unfold writeTexts at h
    simp only at h
    split_ifs at h with h1 h2
    rcases hrec : writeTexts rest (off + (textBytes text).length)
      with e | ⟨bs2, rs2, off3⟩
    · rw [hrec] at h
      simp at h
    · rw [hrec] at h
      simp only at h
      have h3 := Except.ok.inj h
      have hbs : textBytes text ++ bs2 = bs := congrArg Prod.fst h3
      have hrs : (⟨off, hash, unk⟩ : MessageBinStringData) :: rs2 = rs :=
        congrArg (fun p => p.2.1) h3
      have hoff : off3 = off2 := congrArg (fun p => p.2.2) h3
      rcases ih hrec with ⟨ih1, ih2, ih3, ih4, ih5, ih6, ih7⟩
      subst hbs
      subst hrs
      subst hoff
      refine ⟨?_, ?_, ?_, ?_, ?_, ?_, ?_⟩
      · simp [ih1]
      · rw [ih2]
        simp only [List.length_append]
        omega
      · simp [ih3]
      · intro r hr
        rcases List.mem_cons.mp hr with hr | hr
        · exact ⟨(hash, unk, text), by simp, by rw [hr], by rw [hr]⟩
        · rcases ih4 r hr with ⟨m2, hm2, he⟩
          exact ⟨m2, by simp [hm2], he⟩
      · rw [List.pairwise_cons]
        refine ⟨?_, ih5⟩
        intro r hr
        have := (ih6 r hr).1
        simp only
        have htl : 2 ≤ (textBytes text).length := by
          rw [textBytes_length]
          omega
        omega
      · intro r hr
        have htl : 2 ≤ (textBytes text).length := by
          rw [textBytes_length]
          omega
        rcases List.mem_cons.mp hr with hr | hr
        · subst hr
          simp only
          rcases rest with _ | ⟨m2, rest2⟩
          · have : bs2 = [] ∧ off3 = off + (textBytes text).length := by
              unfold writeTexts at hrec
              have h4 := Except.ok.inj hrec
              exact ⟨(congrArg Prod.fst h4).symm,
                (congrArg (fun p => p.2.2) h4).symm⟩
            omega
          · have := ih7 (by simp)
            have hle : off + (textBytes text).length ≤ off3 := by
              rw [ih2]
              omega
            omega
        · have := ih6 r hr
          omega
      · intro hne
        rcases rest with _ | ⟨m2, rest2⟩
        · have : off3 = off + (textBytes text).length := by
            unfold writeTexts at hrec
            have h4 := Except.ok.inj hrec
            exact (congrArg (fun p => p.2.2) h4).symm
          omega
        · exact ih7 (by simp)

lemma except_bind_ok {ε α β : Type} (a : α) (f : α → Except ε β) :
    ((Except.ok a : Except ε α) >>= f) = f a := rfl

lemma except_bind_error {ε α β : Type} (e : ε) (f : α → Except ε β) :
    ((Except.error e : Except ε α) >>= f) = .error e := rfl

lemma drop_append_of_length {α : Type} {a b : List α} {k : Nat}
    (h : a.length = k) : (a ++ b).drop k = b := by
  rw [← h, List.drop_left]

lemma tableBytes_cons (r : MessageBinStringData)
    (rs : List MessageBinStringData) :
    tableBytes (r :: rs) = recordBytes r ++ tableBytes rs := by
  simp [tableBytes]

/-- Reading back the text blobs: if the blobs were emitted starting at offset
`pre.length`, each recorded pointer reads back exactly its message's text. -/
lemma writeTexts_readTexts {msgs : List (Nat × Nat × List Nat)} :
    ∀ {pre suff bs : List Nat} {rs : List MessageBinStringData} {off2 : Nat},
    (∀ m ∈ msgs, (∀ u ∈ m.2.2, u < 2 ^ 16) ∧ (∀ u ∈ m.2.2, u ≠ 0)) →
    writeTexts msgs pre.length = .ok (bs, rs, off2) →
    readTexts (pre ++ bs ++ suff) rs = .ok msgs := by
  induction msgs with
  | nil =>
    intro pre suff bs rs off2 _ h
    unfold writeTexts at h
    have h3 := Except.ok.inj h
    have hrs : ([] : List MessageBinStringData) = rs :=
      congrArg (fun p => p.2.1) h3
    rw [← hrs]
    rfl
  | cons m rest ih =>
    intro pre suff bs rs off2 hwf h
    rcases m with ⟨hash, unk, text⟩
    unfold writeTexts at h
    simp only at h
    split_ifs at h with h1 h2
    rcases hrec : writeTexts rest (pre.length + (textBytes text).length)
      with e | ⟨bs2, rs2, off3⟩
    · rw [hrec] at h
      simp at h
    · rw [hrec] at h
      simp only at h
      have h3 := Except.ok.inj h
      have hbs : textBytes text ++ bs2 = bs := congrArg Prod.fst h3
      have hrs : (⟨pre.length, hash, unk⟩ : MessageBinStringData) :: rs2 = rs :=
        congrArg (fun p => p.2.1) h3
      subst hbs
      subst hrs
      have hfile : pre ++ (textBytes text ++ bs2) ++ suff =
          (pre ++ textBytes text) ++ bs2 ++ suff := by
        simp [List.append_assoc]
      have htext : readText (pre ++ (textBytes text ++ bs2) ++ suff)
          pre.length = .ok text := by
        unfold readText
        rw [List.append_assoc, drop_append_of_length rfl, List.append_assoc]
        exact readUnits_textBytes _ (hwf (hash, unk, text) (by simp)).1
          (hwf (hash, unk, text) (by simp)).2
      have hrest : readTexts (pre ++ (textBytes text ++ bs2) ++ suff) rs2 =
          .ok rest := by
        rw [hfile]
        exact ih (fun x hx => hwf x (by simp [hx]))
          (by rw [List.length_append]; exact hrec)
      show (readText (pre ++ (textBytes text ++ bs2) ++ suff) pre.length >>=
        fun t => readTexts (pre ++ (textBytes text ++ bs2) ++ suff) rs2 >>=
          fun ts => .ok ((hash, unk, t) :: ts)) = .ok ((hash, unk, text) :: rest)
      rw [htext, except_bind_ok, hrest, except_bind_ok]

/-- Reading back the record table from its byte region. -/
lemma readRecords_tableBytes {rs : List MessageBinStringData} :
    ∀ {file : List Nat} {pos : Nat} {rest : List Nat},
    file.drop pos = tableBytes rs ++ rest →
    (∀ r ∈ rs, r.string_pointer < 2 ^ 32 ∧ r.string_hash < 2 ^ 32 ∧
      r.unk < 2 ^ 32) →
    readRecords file pos rs.length = .ok rs := by
  induction rs with
  | nil => intro file pos rest h hb; rfl
  | cons r rs ih =>
    intro file pos rest h hb
    rw [tableBytes_cons, List.append_assoc] at h
    have hd4 : file.drop (pos + 4) =
        u32Bytes r.string_hash ++ (u32Bytes r.unk ++ (tableBytes rs ++ rest)) := by
      rw [← List.drop_drop, h]
      unfold recordBytes
      rw [List.append_assoc, List.append_assoc,
        drop_append_of_length (u32Bytes_length _)]
    have hd8 : file.drop (pos + 8) =
        u32Bytes r.unk ++ (tableBytes rs ++ rest) := by
      rw [show pos + 8 = pos + 4 + 4 by omega, ← List.drop_drop, hd4,
        drop_append_of_length (u32Bytes_length _)]
    have hd12 : file.drop (pos + 12) = tableBytes rs ++ rest := by
      rw [show pos + 12 = pos + 8 + 4 by omega, ← List.drop_drop, hd8,
        drop_append_of_length (u32Bytes_length _)]
    have hptr : readU32At file pos = .ok r.string_pointer := by
      unfold readU32At
      rw [h]
      unfold recordBytes
      rw [List.append_assoc, List.append_assoc]
      exact readU32_u32Bytes _ (hb r (by simp)).1
    have hhash : readU32At file (pos + 4) = .ok r.string_hash := by
      unfold readU32At
      rw [hd4]
      exact readU32_u32Bytes _ (hb r (by simp)).2.1
    have hunk : readU32At file (pos + 8) = .ok r.unk := by
      unfold readU32At
      rw [hd8]
      exact readU32_u32Bytes _ (hb r (by simp)).2.2
    have hrec : readRecordAt file pos = .ok r := by
      show (readU32At file pos >>= fun string_pointer =>
        readU32At file (pos + 4) >>= fun string_hash =>
          readU32At file (pos + 8) >>= fun unk =>
            .ok ⟨string_pointer, string_hash, unk⟩) = .ok r
      rw [hptr, except_bind_ok, hhash, except_bind_ok, hunk, except_bind_ok]
    have hrest : readRecords file (pos + 12) rs.length = .ok rs :=
      ih hd12 (fun x hx => hb x (by simp [hx]))
    show readRecords file pos (rs.length + 1) = .ok (r :: rs)
    show (readRecordAt file pos >>= fun r2 =>
      readRecords file (pos + 12) rs.length >>= fun rs2 => .ok (r2 :: rs2)) =
        .ok (r :: rs)
    rw [hrec, except_bind_ok, hrest, except_bind_ok]

/-- A list strictly sorted by pointer is the unique `ptrLe`-sorted
permutation of itself. -/
lemma sorted_perm_eq {l1 : List MessageBinStringData} :
    ∀ {l2 : List MessageBinStringData},
    List.Pairwise (fun a b => a.string_pointer < b.string_pointer) l1 →
    List.Pairwise ptrLe l2 → l1.Perm l2 → l2 = l1 := by
  induction l1 with
  | nil =>
    intro l2 _ _ hp
    exact hp.symm.eq_nil
  | cons a t1 ih =>
    intro l2 hs1 hs2 hp
    rcases l2 with _ | ⟨b, t2⟩
    · have := hp.eq_nil
      simp at this
    · have hab : a = b := by
        by_contra hne
        have hain : a ∈ b :: t2 := hp.mem_iff.mp (by simp)
        have hbin : b ∈ a :: t1 := hp.symm.mem_iff.mp (by simp)
        have hat2 : a ∈ t2 := by
          rcases List.mem_cons.mp hain with h | h
          · exact absurd h hne
          · exact h
        have hbt1 : b ∈ t1 := by
          rcases List.mem_cons.mp hbin with h | h
          · exact absurd h.symm hne
          · exact h
        have hlt := (List.pairwise_cons.mp hs1).1 b hbt1
        have hle := (List.pairwise_cons.mp hs2).1 a hat2
        unfold ptrLe at hle
        omega
      subst hab
      have hp2 : t1.Perm t2 := hp.cons_inv
      rw [ih (List.pairwise_cons.mp hs1).2 (List.pairwise_cons.mp hs2).2 hp2]

/-- Decomposition of a successful `write`: the emitted parts, the passed
range checks, and the exact byte layout of the output. -/
lemma write_ok_parts {mb : MessageBin} {out : List Nat}
    (hw : mb.write = .ok out) :
    ∃ (text_bytes : List Nat) (strings_data : List MessageBinStringData)
      (off2 pad pad16 : Nat),
      writeTexts mb.messages 16 = .ok (text_bytes, strings_data, off2) ∧
      pad = (if off2 % 4 ≠ 0 then 4 - off2 % 4 else 0) ∧
      pad16 = (if (off2 + pad + strings_data.length * 12 + 8) % 16 ≠ 0 then
        16 - (off2 + pad + strings_data.length * 12 + 8) % 16 else 0) ∧
      off2 + pad + strings_data.length * 12 + 4 < 2 ^ 32 ∧
      off2 + pad + strings_data.length * 12 + 8 + pad16 < 2 ^ 32 ∧
      out = sir0HeaderBytes (off2 + pad + strings_data.length * 12)
          (off2 + pad + strings_data.length * 12 + 8 + pad16)
        ++ text_bytes ++ List.replicate pad 0
        ++ tableBytes (List.insertionSort hashLe strings_data)
        ++ u32Bytes strings_data.length ++ u32Bytes (off2 + pad)
        ++ List.replicate pad16 0
        ++ sir0FooterBytes ([4, 8] ++ (List.range strings_data.length).map
            (fun i => (off2 + pad + i * 12) % 2 ^ 32)
          ++ [off2 + pad + strings_data.length * 12 + 4]) := by
  unfold MessageBin.write at hw
  rcases hwt : writeTexts mb.messages 16 with e | ⟨tb, sd, off2⟩
  · rw [hwt] at hw
    simp at hw
  · rw [hwt] at hw
    simp only at hw
    by_cases h1 : 2 ^ 32 ≤ off2 + (if off2 % 4 ≠ 0 then 4 - off2 % 4 else 0)
    · rw [if_pos h1] at hw
      exact absurd hw (by simp)
    rw [if_neg h1] at hw
    by_cases h2 : 2 ^ 32 ≤ sd.length
    · rw [if_pos h2] at hw
      exact absurd hw (by simp)
    rw [if_neg h2] at hw
    by_cases h3 : 2 ^ 32 ≤ sd.length * 12
    · rw [if_pos h3] at hw
      exact absurd hw (by simp)
    rw [if_neg h3] at hw
    by_cases h4 : 2 ^ 32 ≤
        off2 + (if off2 % 4 ≠ 0 then 4 - off2 % 4 else 0) + sd.length * 12
    · rw [if_pos h4] at hw
      exact absurd hw (by simp)
    rw [if_neg h4] at hw
    by_cases h5 : 2 ^ 32 ≤
        off2 + (if off2 % 4 ≠ 0 then 4 - off2 % 4 else 0) + sd.length * 12 + 4
    · rw [if_pos h5] at hw
      exact absurd hw (by simp)
    rw [if_neg h5] at hw
    rw [if_neg h4] at hw
    by_cases h7 : 2 ^ 32 ≤
        off2 + (if off2 % 4 ≠ 0 then 4 - off2 % 4 else 0) + sd.length * 12 + 8 +
          (if (off2 + (if off2 % 4 ≠ 0 then 4 - off2 % 4 else 0) +
              sd.length * 12 + 8) % 16 ≠ 0 then
            16 - (off2 + (if off2 % 4 ≠ 0 then 4 - off2 % 4 else 0) +
              sd.length * 12 + 8) % 16 else 0)
    · rw [if_pos h7] at hw
      exact absurd hw (by simp)
    rw [if_neg h7] at hw
    refine ⟨tb, sd, off2, _, _, rfl, rfl, rfl, by omega, by omega, ?_⟩
    exact (Except.ok.inj hw).symm

/-- A successfully written file parses back: the Sir0 header leads to the
internal header, which leads to the hash-sorted record table. -/
lemma write_parse {mb : MessageBin} {out : List Nat} (hWf : mb.Wf)
    (hw : mb.write = .ok out) :
    ∃ (text_bytes : List Nat) (strings_data : List MessageBinStringData)
      (off2 : Nat),
      writeTexts mb.messages 16 = .ok (text_bytes, strings_data, off2) ∧
      parseRecords out = .ok (List.insertionSort hashLe strings_data) ∧
      ∃ hp fp suff, out = sir0HeaderBytes hp fp ++ (text_bytes ++ suff) := by
  rcases write_ok_parts hw with
    ⟨tb, sd, off2, pad, pad16, hwt, hpad, hpad16, hb4, hb5, heq⟩
  rcases writeTexts_ok hwt with ⟨w1, w2, w3, w4, w5, w6, w7⟩
  have hsortlen : (List.insertionSort hashLe sd).length = sd.length :=
    (List.perm_insertionSort hashLe sd).length_eq
  have hsortmem : ∀ r ∈ List.insertionSort hashLe sd, r ∈ sd :=
    fun r hr => (List.perm_insertionSort hashLe sd).mem_iff.mp hr
  have hbounds : ∀ r ∈ List.insertionSort hashLe sd,
      r.string_pointer < 2 ^ 32 ∧ r.string_hash < 2 ^ 32 ∧ r.unk < 2 ^ 32 := by
    intro r hr
    have hrsd := hsortmem r hr
    have hptr := w6 r hrsd
    have hne : mb.messages ≠ [] := by
      intro hnil
      rw [hnil] at hwt
      unfold writeTexts at hwt
      have h3 := Except.ok.inj hwt
      have : ([] : List MessageBinStringData) = sd :=
        congrArg (fun p => p.2.1) h3
      rw [← this] at hrsd
      simp at hrsd
    have hoff2 := w7 hne
    rcases w4 r hrsd with ⟨m, hm, hh, hu⟩
    rcases hWf m hm with ⟨hm1, hm2, _⟩
    exact ⟨by omega, by rw [hh]; exact hm1, by rw [hu]; exact hm2⟩
  have hcons : out = 83 :: 73 :: 82 :: 48 ::
      (u32Bytes (off2 + pad + sd.length * 12) ++
        (u32Bytes (off2 + pad + sd.length * 12 + 8 + pad16) ++
          ([0, 0, 0, 0] ++ (tb ++ (List.replicate pad 0 ++
            (tableBytes (List.insertionSort hashLe sd) ++
              (u32Bytes sd.length ++ (u32Bytes (off2 + pad) ++
                (List.replicate pad16 0 ++
                  sir0FooterBytes ([4, 8] ++ (List.range sd.length).map
                      (fun i => (off2 + pad + i * 12) % 2 ^ 32)
                    ++ [off2 + pad + sd.length * 12 + 4])))))))))) := by
    rw [heq]
    simp [sir0HeaderBytes, List.append_assoc]
  have htake : out.take 4 = [83, 73, 82, 48] := by
    rw [hcons]
    rfl
  have hdrop4 : readU32At out 4 = .ok (off2 + pad + sd.length * 12) := by
    unfold readU32At
    rw [hcons]
    show readU32 (u32Bytes (off2 + pad + sd.length * 12) ++ _) = _
    exact readU32_u32Bytes _ (by omega)
  have hdrop8 : readU32At out 8 = .ok (off2 + pad + sd.length * 12 + 8 + pad16) := by
    unfold readU32At
    rw [hcons]
    show readU32 (List.drop 4 (u32Bytes (off2 + pad + sd.length * 12) ++ _)) = _
    rw [drop_append_of_length (u32Bytes_length _)]
    exact readU32_u32Bytes _ (by omega)
  have hsir0 : parseSir0 out = .ok (off2 + pad + sd.length * 12,
      off2 + pad + sd.length * 12 + 8 + pad16) := by
    unfold parseSir0
    rw [if_pos htake, hdrop4, hdrop8]
  have hsplit1 : out = (sir0HeaderBytes (off2 + pad + sd.length * 12)
        (off2 + pad + sd.length * 12 + 8 + pad16)
      ++ tb ++ List.replicate pad 0
      ++ tableBytes (List.insertionSort hashLe sd)) ++
      (u32Bytes sd.length ++ (u32Bytes (off2 + pad) ++
        (List.replicate pad16 0 ++
          sir0FooterBytes ([4, 8] ++ (List.range sd.length).map
              (fun i => (off2 + pad + i * 12) % 2 ^ 32)
            ++ [off2 + pad + sd.length * 12 + 4])))) := by
    rw [heq]
    simp [List.append_assoc]
  have hlen1 : (sir0HeaderBytes (off2 + pad + sd.length * 12)
        (off2 + pad + sd.length * 12 + 8 + pad16)
      ++ tb ++ List.replicate pad 0
      ++ tableBytes (List.insertionSort hashLe sd)).length =
      off2 + pad + sd.length * 12 := by
    simp only [List.length_append, sir0HeaderBytes_length,
      List.length_replicate, tableBytes_length, hsortlen]
    omega
  have hdrophp : out.drop (off2 + pad + sd.length * 12) =
      u32Bytes sd.length ++ (u32Bytes (off2 + pad) ++
        (List.replicate pad16 0 ++
          sir0FooterBytes ([4, 8] ++ (List.range sd.length).map
              (fun i => (off2 + pad + i * 12) % 2 ^ 32)
            ++ [off2 + pad + sd.length * 12 + 4]))) := by
    rw [hsplit1]
    exact drop_append_of_length hlen1
  have hcount : readU32At out (off2 + pad + sd.length * 12) = .ok sd.length := by
    unfold readU32At
    rw [hdrophp]
    exact readU32_u32Bytes _ (by omega)
  have hmeta : readU32At out (off2 + pad + sd.length * 12 + 4) =
      .ok (off2 + pad) := by
    unfold readU32At
    rw [← List.drop_drop, hdrophp, drop_append_of_length (u32Bytes_length _)]
    exact readU32_u32Bytes _ (by omega)
  have hheader : parseHeader out = .ok (sd.length, off2 + pad) := by
    show (parseSir0 out >>= fun sir0 =>
      readU32At out sir0.1 >>= fun string_count =>
        readU32At out (sir0.1 + 4) >>= fun string_info_pointer =>
          .ok (string_count, string_info_pointer)) = _
    rw [hsir0, except_bind_ok]
    simp only
    rw [hcount, except_bind_ok, hmeta, except_bind_ok]
  have hsplit2 : out = (sir0HeaderBytes (off2 + pad + sd.length * 12)
        (off2 + pad + sd.length * 12 + 8 + pad16)
      ++ tb ++ List.replicate pad 0) ++
      (tableBytes (List.insertionSort hashLe sd) ++
        (u32Bytes sd.length ++ (u32Bytes (off2 + pad) ++
          (List.replicate pad16 0 ++
            sir0FooterBytes ([4, 8] ++ (List.range sd.length).map
                (fun i => (off2 + pad + i * 12) % 2 ^ 32)
              ++ [off2 + pad + sd.length * 12 + 4]))))) := by
    rw [heq]
    simp [List.append_assoc]
  have hlen2 : (sir0HeaderBytes (off2 + pad + sd.length * 12)
        (off2 + pad + sd.length * 12 + 8 + pad16)
      ++ tb ++ List.replicate pad 0).length = off2 + pad := by
    simp only [List.length_append, sir0HeaderBytes_length,
      List.length_replicate]
    omega
  have hdropmeta : out.drop (off2 + pad) =
      tableBytes (List.insertionSort hashLe sd) ++
        (u32Bytes sd.length ++ (u32Bytes (off2 + pad) ++
          (List.replicate pad16 0 ++
            sir0FooterBytes ([4, 8] ++ (List.range sd.length).map
                (fun i => (off2 + pad + i * 12) % 2 ^ 32)
              ++ [off2 + pad + sd.length * 12 + 4])))) := by
    rw [hsplit2]
    exact drop_append_of_length hlen2
  have hrr : readRecords out (off2 + pad) sd.length =
      .ok (List.insertionSort hashLe sd) := by
    rw [← hsortlen]
    exact readRecords_tableBytes hdropmeta hbounds
  refine ⟨tb, sd, off2, hwt, ?_, ?_⟩
  · show (parseHeader out >>= fun header =>
      readRecords out header.2 header.1) = _
    rw [hheader, except_bind_ok]
    exact hrr
  · refine ⟨off2 + pad + sd.length * 12,
      off2 + pad + sd.length * 12 + 8 + pad16,
      List.replicate pad 0 ++
        (tableBytes (List.insertionSort hashLe sd) ++
          (u32Bytes sd.length ++ (u32Bytes (off2 + pad) ++
            (List.replicate pad16 0 ++
              sir0FooterBytes ([4, 8] ++ (List.range sd.length).map
                  (fun i => (off2 + pad + i * 12) % 2 ^ 32)
                ++ [off2 + pad + sd.length * 12 + 4]))))), ?_⟩
    rw [heq]
    simp [List.append_assoc]

instance (mb : MessageBin) : Decidable mb.Wf := by
  unfold MessageBin.Wf
  infer_instance

instance (mb : MessageBin) : Decidable mb.NoNul := by
  unfold MessageBin.NoNul
  infer_instance

/-- C5.  In the byte output of `write`, the on-disk record table — parsed
back with the same record parser `load_file` uses — is always sorted by
`string_hash` ascending, independent of the order in which the text blobs
were emitted (dictionary iteration order). -/
theorem write_record_table_sorted_by_hash (mb : MessageBin) (out : List Nat)
    (hWf : mb.Wf) (hw : mb.write = .ok out) :
    ∃ records, parseRecords out = .ok records ∧
      List.Pairwise hashLe records := by
  rcases write_parse hWf hw with ⟨tb, sd, off2, hwt, hpr, _⟩
  refine ⟨_, hpr, ?_⟩
  haveI : IsTotal MessageBinStringData hashLe :=
    ⟨fun a b => Nat.le_total a.string_hash b.string_hash⟩
  haveI : IsTrans MessageBinStringData hashLe :=
    ⟨fun a b c hab hbc => Nat.le_trans hab hbc⟩
  exact List.sorted_insertionSort hashLe sd

/-- The one-entry example output used by several witnesses. -/
def exOutA : List Nat :=
  [83, 73, 82, 48, 32, 0, 0, 0, 48, 0, 0, 0, 0, 0, 0, 0, 65, 0, 0, 0,
   16, 0, 0, 0, 1, 0, 0, 0, 2, 0, 0, 0, 1, 0, 0, 0, 20, 0, 0, 0,
   0, 0, 0, 0, 0, 0, 0, 0, 4, 0, 0, 0, 8, 0, 0, 0, 20, 0, 0, 0, 36, 0, 0, 0]

/-- A two-entry example output (hashes inserted out of hash order). -/
def exOutB : List Nat :=
  [83, 73, 82, 48, 52, 0, 0, 0, 64, 0, 0, 0, 0, 0, 0, 0, 65, 0, 0, 0,
   66, 0, 67, 0, 0, 0, 0, 0, 20, 0, 0, 0, 3, 0, 0, 0, 2, 0, 0, 0,
   16, 0, 0, 0, 9, 0, 0, 0, 1, 0, 0, 0, 2, 0, 0, 0, 28, 0, 0, 0,
   0, 0, 0, 0, 4, 0, 0, 0, 8, 0, 0, 0, 28, 0, 0, 0, 40, 0, 0, 0, 56, 0, 0, 0]

/-- Witness for C5 at a concrete store whose insertion order is not hash
order. -/
theorem write_record_table_sorted_by_hash_witness :
    ∃ records, parseRecords exOutB = .ok records ∧
      List.Pairwise hashLe records :=
  write_record_table_sorted_by_hash
    ((MessageBin.empty.insert 9 1 [65]).insert 3 2 [66, 67]) exOutB
    (by decide) (by decide)

instance : IsTotal MessageBinStringData ptrLe :=
  ⟨fun a b => Nat.le_total a.string_pointer b.string_pointer⟩

instance : IsTrans MessageBinStringData ptrLe :=
  ⟨fun a b c hab hbc => Nat.le_trans hab hbc⟩

/-- C1 (amended).  Writing a well-formed store whose texts contain no NUL
code unit and reading the produced bytes back yields a store with exactly
the same set of `(hash, unk, text)` triples.  The no-NUL restriction is
forced by the counterexample: a NUL inside a text collides with the on-disk
zero terminator and truncates the text on reload. -/
theorem message_bin_write_load_roundtrip (mb : MessageBin) (out : List Nat)
    (hInv : mb.Inv) (hWf : mb.Wf) (hNN : mb.NoNul)
    (hw : mb.write = .ok out) :
    ∃ mb2, MessageBin.load_file out = .ok mb2 ∧
      ∀ x, x ∈ mb2.message ↔ x ∈ mb.message := by
  rcases write_parse hWf hw with ⟨tb, sd, off2, hwt, hpr, hp, fp, suff, hlay⟩
  rcases writeTexts_ok hwt with ⟨w1, w2, w3, w4, w5, w6, w7⟩
  have hsorted : List.Pairwise ptrLe
      (List.insertionSort ptrLe (List.insertionSort hashLe sd)) :=
    List.sorted_insertionSort ptrLe (List.insertionSort hashLe sd)
  have hps : sd.Perm (List.insertionSort ptrLe (List.insertionSort hashLe sd)) :=
    ((List.perm_insertionSort ptrLe (List.insertionSort hashLe sd)).trans
      (List.perm_insertionSort hashLe sd)).symm
  have heqs : List.insertionSort ptrLe (List.insertionSort hashLe sd) = sd :=
    sorted_perm_eq w5 hsorted hps
  have hwf2 : ∀ m ∈ mb.messages,
      (∀ u ∈ m.2.2, u < 2 ^ 16) ∧ (∀ u ∈ m.2.2, u ≠ 0) :=
    fun m hm => ⟨(hWf m hm).2.2, hNN m hm⟩
  have h16 : writeTexts mb.messages (sir0HeaderBytes hp fp).length =
      .ok (tb, sd, off2) := by
    rw [sir0HeaderBytes_length]
    exact hwt
  have hrt : readTexts out sd = .ok mb.messages := by
    rw [hlay, show sir0HeaderBytes hp fp ++ (tb ++ suff) =
      sir0HeaderBytes hp fp ++ tb ++ suff by simp [List.append_assoc]]
    exact writeTexts_readTexts hwf2 h16
  have hlt : loadTriples out = .ok mb.messages := by
    show (parseRecords out >>= fun records =>
      readTexts out (List.insertionSort ptrLe records)) = _
    rw [hpr, except_bind_ok, heqs, hrt]
  have hdisj : ∀ x ∈ mb.messages, ∀ y ∈ MessageBin.empty.message,
      x.1 ≠ y.1 := by
    intro x hx y hy
    simp [MessageBin.empty] at hy
  rcases foldl_insert_append inv_empty (inv_message_hashes_nodup hInv) hdisj
    with ⟨hmsg, hinv2⟩
  have hload : MessageBin.load_file out = .ok
      (mb.messages.foldl (fun acc x => acc.insert x.1 x.2.1 x.2.2)
        MessageBin.empty) := by
    show (loadTriples out >>= fun ts =>
      .ok (ts.foldl (fun acc x => acc.insert x.1 x.2.1 x.2.2)
        MessageBin.empty)) = _
    rw [hlt, except_bind_ok]
  refine ⟨_, hload, ?_⟩
  intro x
  simp only [MessageBin.messages] at hmsg ⊢
  rw [hmsg]
  simp [MessageBin.empty]

/-- C1 counterexample.  The store `{1 ↦ (2, [NUL])}` writes successfully, but
loading the produced bytes yields the triple `(1, 2, [])` — the NUL collided
with the string terminator — so the loaded set of triples differs from the
written one. -/
theorem message_bin_roundtrip_counterexample :
    (MessageBin.empty.insert 1 2 [0]).write =
      .ok [83, 73, 82, 48, 32, 0, 0, 0, 48, 0, 0, 0, 0, 0, 0, 0, 0, 0, 0, 0,
        16, 0, 0, 0, 1, 0, 0, 0, 2, 0, 0, 0, 1, 0, 0, 0, 20, 0, 0, 0,
        0, 0, 0, 0, 0, 0, 0, 0, 4, 0, 0, 0, 8, 0, 0, 0, 20, 0, 0, 0,
        36, 0, 0, 0] ∧
    MessageBin.load_file
      [83, 73, 82, 48, 32, 0, 0, 0, 48, 0, 0, 0, 0, 0, 0, 0, 0, 0, 0, 0,
        16, 0, 0, 0, 1, 0, 0, 0, 2, 0, 0, 0, 1, 0, 0, 0, 20, 0, 0, 0,
        0, 0, 0, 0, 0, 0, 0, 0, 4, 0, 0, 0, 8, 0, 0, 0, 20, 0, 0, 0,
        36, 0, 0, 0] = .ok ⟨[(1, 0)], [(1, 2, [])]⟩ ∧
    (1, 2, [0]) ∈ (MessageBin.empty.insert 1 2 [0]).message ∧
    (1, 2, ([0] : List Nat)) ∉ ([(1, 2, ([] : List Nat))] :
      List (Nat × Nat × List Nat)) := by
  refine ⟨by decide, by decide, by decide, by decide⟩

/-- Witness for C1: the amended round trip at a concrete store. -/
theorem message_bin_write_load_roundtrip_witness :
    ∃ mb2, MessageBin.load_file exOutA = .ok mb2 ∧
      ∀ x, x ∈ mb2.message ↔ x ∈ (MessageBin.empty.insert 1 2 [65]).message :=
  message_bin_write_load_roundtrip (MessageBin.empty.insert 1 2 [65]) exOutA
    (by decide) (by decide) (by decide) (by decide)

lemma foldl_insert_inv {mb : MessageBin} {l : List (Nat × Nat × List Nat)}
    (hInv : mb.Inv) :
    (l.foldl (fun acc x => acc.insert x.1 x.2.1 x.2.2) mb).Inv := by
  induction l generalizing mb with
  | nil => exact hInv
  | cons x l ih =>
    simp only [List.foldl_cons]
    exact ih (inv_insert x.1 x.2.1 x.2.2 hInv)

/-- C6 (amended).  `load_file` builds its result by processing the parsed
records in ascending `string_pointer` order — regardless of their order in
the on-disk record table — and, when the on-disk hashes are pairwise
distinct, the iteration order of the returned store is exactly that
processing order.  The distinctness proviso is forced by the counterexample:
with duplicate hashes a later record updates the earlier entry in place, so
the store holds fewer entries than were processed and its message list
cannot equal the processing order. -/
theorem load_file_iteration_order (file : List Nat) (mb : MessageBin)
    (h : MessageBin.load_file file = .ok mb) :
    ∃ records ts,
      parseRecords file = .ok records ∧
      List.Pairwise ptrLe (List.insertionSort ptrLe records) ∧
      readTexts file (List.insertionSort ptrLe records) = .ok ts ∧
      ((ts.map (fun x => x.1)).Nodup → mb.message = ts) := by
  have h2 : (loadTriples file >>= fun ts =>
      .ok (ts.foldl (fun acc x => acc.insert x.1 x.2.1 x.2.2)
        MessageBin.empty)) = .ok mb := h
  rcases hlt : loadTriples file with e | ts
  · rw [hlt, except_bind_error] at h2
    simp at h2
  · rw [hlt, except_bind_ok] at h2
    have hmb : mb = ts.foldl (fun acc x => acc.insert x.1 x.2.1 x.2.2)
        MessageBin.empty := (Except.ok.inj h2).symm
    have h3 : (parseRecords file >>= fun records =>
        readTexts file (List.insertionSort ptrLe records)) = .ok ts := hlt
    rcases hpr : parseRecords file with e | records
    · rw [hpr, except_bind_error] at h3
      simp at h3
    · rw [hpr, except_bind_ok] at h3
      refine ⟨records, ts, rfl, List.sorted_insertionSort ptrLe records, h3, ?_⟩
      intro hnd
      rw [hmb]
      have hdisj : ∀ x ∈ ts, ∀ y ∈ MessageBin.empty.message, x.1 ≠ y.1 := by
        intro x hx y hy
        simp [MessageBin.empty] at hy
      rw [(foldl_insert_append inv_empty hnd hdisj).1]
      simp [MessageBin.empty]

/-- Witness for C6 at a concrete loadable file. -/
theorem load_file_iteration_order_witness :
    ∃ records ts,
      parseRecords exOutB = .ok records ∧
      List.Pairwise ptrLe (List.insertionSort ptrLe records) ∧
      readTexts exOutB (List.insertionSort ptrLe records) = .ok ts ∧
      ((ts.map (fun x => x.1)).Nodup →
        (⟨[(9, 0), (3, 1)], [(9, 1, [65]), (3, 2, [66, 67])]⟩ :
          MessageBin).message = ts) :=
  load_file_iteration_order exOutB
    ⟨[(9, 0), (3, 1)], [(9, 1, [65]), (3, 2, [66, 67])]⟩ (by decide)

/-- C10.  The representation invariant of `MessageBin`: it holds for the
default store, is preserved by every `insert`, and holds for every store
`load_file` returns; under it the entry hashes are pairwise distinct,
`hash_to_id` maps exactly the stored hashes to the indices of their entries,
and `message_by_hash` returns the stored text for present hashes and `none`
for absent ones. -/
theorem message_bin_invariant :
    MessageBin.empty.Inv
    ∧ (∀ (mb : MessageBin) (h u : Nat) (t : List Nat), mb.Inv →
        (mb.insert h u t).Inv)
    ∧ (∀ mb : MessageBin, mb.Inv → (mb.message.map (fun x => x.1)).Nodup)
    ∧ (∀ (mb : MessageBin) (h i : Nat), mb.Inv →
        (mapGet mb.hash_to_id h = some i ↔
          ∃ u t, mb.message[i]? = some (h, u, t)))
    ∧ (∀ (mb : MessageBin) (h i u : Nat) (t : List Nat), mb.Inv →
        mb.message[i]? = some (h, u, t) → mb.message_by_hash h = some t)
    ∧ (∀ (mb : MessageBin) (h : Nat), mb.Inv →
        (∀ x ∈ mb.message, x.1 ≠ h) → mb.message_by_hash h = none)
    ∧ (∀ (file : List Nat) (mb : MessageBin),
        MessageBin.load_file file = .ok mb → mb.Inv) := by
  refine ⟨inv_empty, fun mb h u t hInv => inv_insert h u t hInv,
    fun mb hInv => inv_message_hashes_nodup hInv, ?_, ?_, ?_, ?_⟩
  · intro mb h i hInv
    constructor
    · exact fun hg => inv_index_get hInv hg
    · rintro ⟨u, t, hg⟩
      exact inv_get_index hInv hg
  · intro mb h i u t hInv hg
    unfold MessageBin.message_by_hash
    rw [inv_get_index hInv hg]
    simp only [hg, Option.map_some']
  · intro mb h hInv hf
    unfold MessageBin.message_by_hash
    rw [inv_fresh_none hInv hf]
  · intro file mb h
    have h2 : (loadTriples file >>= fun ts =>
        .ok (ts.foldl (fun acc x => acc.insert x.1 x.2.1 x.2.2)
          MessageBin.empty)) = .ok mb := h
    rcases hlt : loadTriples file with e | ts
    · rw [hlt, except_bind_error] at h2
      simp at h2
    · rw [hlt, except_bind_ok] at h2
      rw [← Except.ok.inj h2]
      exact foldl_insert_inv inv_empty

/-- Witness for C10: invariant preservation applied at a concrete store. -/
theorem message_bin_invariant_witness :
    (MessageBin.empty.insert 1 2 [65]).Inv :=
  message_bin_invariant.2.1 MessageBin.empty 1 2 [65] (by decide)

lemma writeTexts_isOk_iff (msgs : List (Nat × Nat × List Nat)) :
    ∀ off : Nat, (∃ r, writeTexts msgs off = .ok r) ↔
      (msgs = [] ∨
        off + (msgs.map (fun m => (textBytes m.2.2).length)).sum < 2 ^ 32) := by
  induction msgs with
  | nil =>
    intro off
    constructor
    · intro
      exact Or.inl rfl
    · intro
      exact ⟨([], [], off), rfl⟩
  | cons m rest ih =>
    intro off
    rcases m with ⟨hash, unk, text⟩
    constructor
    · rintro ⟨r, hr⟩
      unfold writeTexts at hr
      simp only at hr
      by_cases h1 : 2 ^ 32 ≤ (textBytes text).length
      · rw [if_pos h1] at hr
        simp at hr
      rw [if_neg h1] at hr
      by_cases h2 : 2 ^ 32 ≤ off + (textBytes text).length
      · rw [if_pos h2] at hr
        simp at hr
      rw [if_neg h2] at hr
      rcases hrec : writeTexts rest (off + (textBytes text).length)
        with e | r2
      · rw [hrec] at hr
        simp at hr
      · have hok := (ih (off + (textBytes text).length)).mp ⟨r2, hrec⟩
        right
        simp only [List.map_cons, List.sum_cons]
        rcases hok with hnil | hlt
        · subst hnil
          simp only [List.map_nil, List.sum_nil]
          omega
        · omega
    · rintro (h | h)
      · simp at h
      · simp only [List.map_cons, List.sum_cons] at h
        have h1 : ¬ 2 ^ 32 ≤ (textBytes text).length := by omega
        have h2 : ¬ 2 ^ 32 ≤ off + (textBytes text).length := by omega
        have hrec : ∃ r2, writeTexts rest (off + (textBytes text).length) =
            .ok r2 := by
          refine (ih (off + (textBytes text).length)).mpr ?_
          rcases rest with _ | ⟨m2, rest2⟩
          · exact Or.inl rfl
          · right
            omega
        rcases hrec with ⟨⟨bs2, rs2, off3⟩, hrec⟩
        refine ⟨(textBytes text ++ bs2,
          (⟨off, hash, unk⟩ : MessageBinStringData) :: rs2, off3), ?_⟩
        unfold writeTexts
        simp only
        rw [if_neg h1, if_neg h2, hrec]

lemma writeTexts_error {msgs : List (Nat × Nat × List Nat)} :
    ∀ {off : Nat} {e : MessageBinWriteError},
    writeTexts msgs off = .error e → e = .TooBigError ∨ e = .Overflow := by
  induction msgs with
  | nil =>
    intro off e h
    unfold writeTexts at h
    simp at h
  | cons m rest ih =>
    intro off e h
    rcases m with ⟨hash, unk, text⟩
    unfold writeTexts at h
    simp only at h
    by_cases h1 : 2 ^ 32 ≤ (textBytes text).length
    · rw [if_pos h1] at h
      exact Or.inl (Except.error.inj h).symm
    rw [if_neg h1] at h
    by_cases h2 : 2 ^ 32 ≤ off + (textBytes text).length
    · rw [if_pos h2] at h
      exact Or.inr (Except.error.inj h).symm
    rw [if_neg h2] at h
    rcases hrec : writeTexts rest (off + (textBytes text).length) with e2 | r2
    · rw [hrec] at h
      simp only at h
      rw [← Except.error.inj h]
      exact ih hrec
    · rw [hrec] at h
      simp at h

/-- Rounding up to a 4-byte boundary (the text-section padding step). -/
def align4 (x : Nat) : Nat := x + (if x % 4 ≠ 0 then 4 - x % 4 else 0)

/-- Rounding up to a 16-byte boundary (the pre-footer padding step). -/
def align16 (x : Nat) : Nat := x + (if x % 16 ≠ 0 then 16 - x % 16 else 0)

/-- The exact (unbounded) footer offset `write` would reach: texts end at
`16 + Σ`, padded to 4, then the 12-byte records and the 8-byte internal
header, padded to 16.  Every offset/length `write` computes is at most this
value. -/
def writeEndOffset (mb : MessageBin) : Nat :=
  align16 (align4 (16 +
      (mb.message.map (fun m => (textBytes m.2.2).length)).sum) +
    mb.message.length * 12 + 8)

lemma writeEndOffset_eq {mb : MessageBin} {tb : List Nat}
    {sd : List MessageBinStringData} {off2 : Nat}
    (hwt : writeTexts mb.messages 16 = .ok (tb, sd, off2)) :
    writeEndOffset mb =
      off2 + (if off2 % 4 ≠ 0 then 4 - off2 % 4 else 0) + sd.length * 12 + 8 +
        (if (off2 + (if off2 % 4 ≠ 0 then 4 - off2 % 4 else 0) +
            sd.length * 12 + 8) % 16 ≠ 0 then
          16 - (off2 + (if off2 % 4 ≠ 0 then 4 - off2 % 4 else 0) +
            sd.length * 12 + 8) % 16 else 0) := by
  rcases writeTexts_ok hwt with ⟨w1, w2, w3, -, -, -, -⟩
  have hS : 16 + (mb.message.map (fun m => (textBytes m.2.2).length)).sum =
      off2 := by
    rw [w2, w1, List.length_flatten, List.map_map]
    simp only [MessageBin.messages]
    rfl
  have hL : mb.message.length = sd.length := by
    simp only [MessageBin.messages] at w3
    omega
  unfold writeEndOffset align4 align16
  rw [hS, hL]

/-- C3.  `write` succeeds exactly when the whole layout fits in the `u32`
range (`writeEndOffset`), and otherwise returns the dedicated overflow or
int-conversion error — never a wrapped or truncated output. -/
theorem write_offset_arithmetic_checked (mb : MessageBin) :
    ((∃ out, mb.write = .ok out) ↔ writeEndOffset mb < 2 ^ 32) ∧
    (mb.write = .error .Overflow ∨ mb.write = .error .TooBigError ∨
      ∃ out, mb.write = .ok out) := by
  have hiff : (∃ out, mb.write = .ok out) ↔ writeEndOffset mb < 2 ^ 32 := by
    constructor
    · rintro ⟨out, hw⟩
      rcases write_ok_parts hw with
        ⟨tb, sd, off2, pad, pad16, hwt, hpad, hpad16, hb4, hb5, -⟩
      rw [writeEndOffset_eq hwt, ← hpad, ← hpad16]
      exact hb5
    · intro hcond
      have hTS : ∃ r, writeTexts mb.messages 16 = .ok r := by
        refine (writeTexts_isOk_iff mb.messages 16).mpr ?_
        rcases hmm : mb.messages with _ | ⟨m, ms⟩
        · exact Or.inl rfl
        · right
          have hle : 16 +
              (mb.message.map (fun m => (textBytes m.2.2).length)).sum ≤
              writeEndOffset mb := by
            unfold writeEndOffset align4 align16
            omega
          simp only [MessageBin.messages] at hmm ⊢
          rw [hmm] at hle
          omega
      rcases hTS with ⟨⟨tb, sd, off2⟩, hwt⟩
      have hwe := writeEndOffset_eq hwt
      have hple : (if off2 % 4 ≠ 0 then 4 - off2 % 4 else 0) ≤ 3 := by
        split_ifs <;> omega
      unfold MessageBin.write
      rw [hwt]
      simp only
      rw [if_neg (by omega), if_neg (by omega), if_neg (by omega),
        if_neg (by omega), if_neg (by omega), if_neg (by omega),
        if_neg (by omega)]
      exact ⟨_, rfl⟩
  refine ⟨hiff, ?_⟩
  rcases hwt : writeTexts mb.messages 16 with e | ⟨tb, sd, off2⟩
  · have hwrite : mb.write = .error e := by
      unfold MessageBin.write
      rw [hwt]
    rcases writeTexts_error hwt with he | he
    · right
      left
      rw [hwrite, he]
    · left
      rw [hwrite, he]
  · unfold MessageBin.write
    rw [hwt]
    simp only
    by_cases h1 : 2 ^ 32 ≤ off2 + (if off2 % 4 ≠ 0 then 4 - off2 % 4 else 0)
    · rw [if_pos h1]
      right
      left
      rfl
    rw [if_neg h1]
    by_cases h2 : 2 ^ 32 ≤ sd.length
    · rw [if_pos h2]
      right
      left
      rfl
    rw [if_neg h2]
    by_cases h3 : 2 ^ 32 ≤ sd.length * 12
    · rw [if_pos h3]
      left
      rfl
    rw [if_neg h3]
    by_cases h4 : 2 ^ 32 ≤
        off2 + (if off2 % 4 ≠ 0 then 4 - off2 % 4 else 0) + sd.length * 12
    · rw [if_pos h4]
      left
      rfl
    rw [if_neg h4]
    by_cases h5 : 2 ^ 32 ≤
        off2 + (if off2 % 4 ≠ 0 then 4 - off2 % 4 else 0) + sd.length * 12 + 4
    · rw [if_pos h5]
      left
      rfl
    rw [if_neg h5]
    rw [if_neg h4]
    by_cases h7 : 2 ^ 32 ≤
        off2 + (if off2 % 4 ≠ 0 then 4 - off2 % 4 else 0) + sd.length * 12 + 8 +
          (if (off2 + (if off2 % 4 ≠ 0 then 4 - off2 % 4 else 0) +
              sd.length * 12 + 8) % 16 ≠ 0 then
            16 - (off2 + (if off2 % 4 ≠ 0 then 4 - off2 % 4 else 0) +
              sd.length * 12 + 8) % 16 else 0)
    · rw [if_pos h7]
      right
      left
      rfl
    rw [if_neg h7]
    right
    right
    exact ⟨_, rfl⟩

/-- A loadable file whose record table carries two records with the same
hash 1, at pointers 16 and 20. -/
def dupHashFile : List Nat :=
  [83, 73, 82, 48, 48, 0, 0, 0, 64, 0, 0, 0, 0, 0, 0, 0,
   65, 0, 0, 0,
   66, 0, 0, 0,
   16, 0, 0, 0, 1, 0, 0, 0, 0, 0, 0, 0,
   20, 0, 0, 0, 1, 0, 0, 0, 1, 0, 0, 0,
   2, 0, 0, 0, 24, 0, 0, 0]

/-- C6 counterexample.  On `dupHashFile` the two on-disk records are
processed in ascending `string_pointer` order, giving the triples
`[(1, 0, [65]), (1, 1, [66])]`, but the returned store's message list is the
single merged entry `[(1, 1, [66])]` — the second record updated the first
in place — so the store's iteration order is not equal to the order in which
the records were processed, refuting the claim for files with duplicate
hashes. -/
theorem load_file_iteration_order_counterexample :
    parseRecords dupHashFile =
      .ok [⟨16, 1, 0⟩, ⟨20, 1, 1⟩] ∧
    List.insertionSort ptrLe
      [(⟨16, 1, 0⟩ : MessageBinStringData), ⟨20, 1, 1⟩] =
      [⟨16, 1, 0⟩, ⟨20, 1, 1⟩] ∧
    readTexts dupHashFile [⟨16, 1, 0⟩, ⟨20, 1, 1⟩] =
      .ok [(1, 0, [65]), (1, 1, [66])] ∧
    MessageBin.load_file dupHashFile = .ok ⟨[(1, 0)], [(1, 1, [66])]⟩ ∧
    ([(1, 1, [66])] : List (Nat × Nat × List Nat)) ≠
      [(1, 0, [65]), (1, 1, [66])] := by
  refine ⟨by decide, by decide, by decide, by decide, by decide⟩
